import Mathlib

/-!
Verification development for the sharded LRU cache of `util/cache.cc`.

The C++ shard (`LRUCache`) owns an open hash table (`HandleTable`), two
intrusive circular doubly-linked lists (`lru_`, `in_use_`) of heap-allocated
`LRUHandle` records, a `usage_` counter and a `capacity_`.  We embed it
shallowly:

* keys, hashes, values and charges are `Nat` (the cache treats keys as
  opaque byte strings compared for equality, values as opaque pointers);
* a heap-allocated `LRUHandle*` becomes an identifier (`Nat`) mapped to an
  `LRUHandle` record by an association-list heap; `malloc` hands out
  successive identifiers, `free` deletes the binding;
* the circular doubly-linked lists become `List Nat` of identifiers; the
  head of the list is the oldest entry (`lru_.next`), appending at the end
  is `LRU_Append` (insertion just before the dummy head);
* the hash table keeps its bucket-array structure: an array of chains,
  indexed by `hash &&& (length - 1)` exactly as `FindPointer` does;
* the per-entry deleter callback is replaced by a ghost log `delLog` that
  records, in invocation order, the identifier, key and value passed to a
  deleter; a ghost log `insLog` records every allocation the same way, and
  a ghost multiset `held` records the handles currently held by clients
  (one occurrence per outstanding handle).  Ghost fields are never read by
  the cache operations themselves; `held` only guards which `Release`
  calls a well-behaved client may perform (releasing a handle one does not
  hold is undefined behaviour in the source).

`while` loops (`Resize`'s doubling loop, the eviction loops of `Insert`
and `Prune`) are embedded with explicit fuel; the fuel chosen is provably
sufficient on every state the source can reach.
-/

/-- A node of a hash-table bucket chain: the `LRUHandle*` seen by
`HandleTable`, projected to the fields the table reads (`key()`, `hash`)
plus the identity `id` of the heap record it points to. -/
structure HTEntry where
  key : Nat
  hash : Nat
  id : Nat
deriving DecidableEq, Repr

/-- `FindPointer` walking one bucket chain: stop at the first node with
equal `hash` and equal key, i.e. the loop
`while (*ptr != nullptr && ((*ptr)->hash != hash || key != (*ptr)->key()))`. -/
def bucketFind : List HTEntry → Nat → Nat → Option HTEntry
  | [], _, _ => none
  | e :: rest, k, h =>
    if e.hash = h ∧ e.key = k then some e else bucketFind rest k h

/-- `HandleTable::Insert` restricted to one bucket: the new node takes the
slot of the matching node (inheriting its `next_hash`), or is written into
the trailing slot when no node matches.  Returns the displaced node. -/
def bucketInsert : List HTEntry → HTEntry → Option HTEntry × List HTEntry
  | [], x => (none, [x])
  | e :: rest, x =>
    if e.hash = x.hash ∧ e.key = x.key then (some e, x :: rest)
    else
      let p := bucketInsert rest x
      (p.1, e :: p.2)

/-- `HandleTable::Remove` restricted to one bucket: unlink the matching
node (its predecessor's `next_hash` skips it) and return it. -/
def bucketRemove : List HTEntry → Nat → Nat → Option HTEntry × List HTEntry
  | [], _, _ => (none, [])
  | e :: rest, k, h =>
    if e.hash = h ∧ e.key = k then (some e, rest)
    else
      let p := bucketRemove rest k h
      (p.1, e :: p.2)

/-- The doubling loop of `HandleTable::Resize`:
`while (new_length < elems_) new_length *= 2`, with explicit fuel. -/
def growLength : Nat → Nat → Nat → Nat
  | 0, n, _ => n
  | fuel + 1, n, e => if n < e then growLength fuel (n * 2) e else n

/-- `HandleTable::Resize`'s new length, starting from 4.  Fuel `e` is
sufficient: doubling from 4 reaches `e` within `e` steps. -/
def resizeLength (e : Nat) : Nat := growLength e 4 e

/-- The rehash loop of `HandleTable::Resize`: push every node of the old
chains (scanned bucket 0 first, each chain head to tail) onto the front of
its new bucket `hash & (new_length - 1)`. -/
def rehash : List HTEntry → List (List HTEntry) → List (List HTEntry)
  | [], nl => nl
  | e :: rest, nl =>
    rehash rest
      (nl.set (e.hash &&& (nl.length - 1))
        (e :: nl.getD (e.hash &&& (nl.length - 1)) []))

/-- The `HandleTable`: `length_` buckets (`list_`), `elems_` chained
nodes.  `list` holds the bucket chains. -/
structure HandleTable where
  length : Nat
  elems : Nat
  list : List (List HTEntry)
deriving DecidableEq, Repr

/-- `HandleTable::Resize`. -/
def HandleTable.resize (t : HandleTable) : HandleTable :=
  let newLength := resizeLength t.elems
  { length := newLength, elems := t.elems,
    list := rehash t.list.flatten (List.replicate newLength []) }

/-- The `HandleTable` constructor: zero-initialise, then `Resize()`. -/
def HandleTable.init : HandleTable :=
  HandleTable.resize { length := 0, elems := 0, list := [] }

/-- All chained nodes of the table, bucket 0 first. -/
def HandleTable.entries (t : HandleTable) : List HTEntry := t.list.flatten

/-- `HandleTable::Lookup`: dereference the slot `FindPointer` returns. -/
def HandleTable.find (t : HandleTable) (k h : Nat) : Option HTEntry :=
  bucketFind (t.list.getD (h &&& (t.length - 1)) []) k h

/-- `HandleTable::Insert`: splice the node into the slot `FindPointer`
found; on a fresh (key, hash), `++elems_` and resize when
`elems_ > length_`. -/
def HandleTable.insert (t : HandleTable) (x : HTEntry) :
    Option HTEntry × HandleTable :=
  let idx := x.hash &&& (t.length - 1)
  let p := bucketInsert (t.list.getD idx []) x
  let t1 : HandleTable := { t with list := t.list.set idx p.2 }
  match p.1 with
  | some o => (some o, t1)
  | none =>
    let t2 : HandleTable := { t1 with elems := t1.elems + 1 }
    if t2.length < t2.elems then (none, t2.resize) else (none, t2)

/-- `HandleTable::Remove`: unlink and return the matching node,
`--elems_` when one was found. -/
def HandleTable.remove (t : HandleTable) (k h : Nat) :
    Option HTEntry × HandleTable :=
  let idx := h &&& (t.length - 1)
  let p := bucketRemove (t.list.getD idx []) k h
  match p.1 with
  | some x => (some x, { t with list := t.list.set idx p.2, elems := t.elems - 1 })
  | none => (none, { t with list := t.list.set idx p.2 })

/-- The heap record behind an `LRUHandle*`: immutable `key`, `hash`,
`value`, `charge` plus the mutable `refs` and `in_cache`.  (`next`,
`prev`, `next_hash` live in the list and table structures of the state;
`key_length`/`key_data` are folded into `key`.) -/
structure LRUHandle where
  key : Nat
  hash : Nat
  value : Nat
  charge : Nat
  refs : Nat
  in_cache : Bool
deriving DecidableEq, Repr

/-- Read a heap record through its identifier (pointer dereference). -/
def heapGet : List (Nat × LRUHandle) → Nat → Option LRUHandle
  | [], _ => none
  | p :: rest, i => if p.1 = i then some p.2 else heapGet rest i

/-- Overwrite the heap record behind an identifier (field assignment). -/
def heapSet : List (Nat × LRUHandle) → Nat → LRUHandle → List (Nat × LRUHandle)
  | [], _, _ => []
  | p :: rest, i, e => if p.1 = i then (i, e) :: rest else p :: heapSet rest i e

/-- Drop the heap record behind an identifier (`free(e)`). -/
def heapFree : List (Nat × LRUHandle) → Nat → List (Nat × LRUHandle)
  | [], _ => []
  | p :: rest, i => if p.1 = i then rest else p :: heapFree rest i

/-- One shard (`LRUCache`).  `lru` and `in_use` hold identifiers; in
`lru` the head is the oldest entry.  `held`, `insLog` and `delLog` are
ghost instrumentation (see the module comment). -/
structure ShardState where
  capacity : Nat
  usage : Nat
  heap : List (Nat × LRUHandle)
  lru : List Nat
  in_use : List Nat
  table : HandleTable
  nextId : Nat
  held : List Nat
  insLog : List (Nat × Nat × Nat)
  delLog : List (Nat × Nat × Nat)
deriving DecidableEq, Repr

/-- A freshly constructed shard with its capacity set
(`LRUCache::LRUCache` + `SetCapacity`). -/
def initState (cap : Nat) : ShardState :=
  { capacity := cap, usage := 0, heap := [], lru := [], in_use := [],
    table := HandleTable.init, nextId := 0, held := [], insLog := [],
    delLog := [] }

/-- `LRUCache::LRU_Remove`: unlink a node from whichever list it is on. -/
def LRU_Remove (s : ShardState) (i : Nat) : ShardState :=
  { s with lru := s.lru.erase i, in_use := s.in_use.erase i }

/-- `LRUCache::Ref`: promote an entry whose only reference was the
cache's from `lru_` to `in_use_`, then `refs++`. -/
def RefOp (s : ShardState) (i : Nat) : ShardState :=
  match heapGet s.heap i with
  | none => s
  | some e =>
    let s1 :=
      if e.refs = 1 ∧ e.in_cache = true then
        let s0 := LRU_Remove s i
        { s0 with in_use := s0.in_use ++ [i] }
      else s
    { s1 with heap := heapSet s1.heap i { e with refs := e.refs + 1 } }

/-- `LRUCache::Unref`: `refs--`; at zero run the deleter and free the
record; at one while still cached, move from `in_use_` to the newest end
of `lru_`. -/
def UnrefOp (s : ShardState) (i : Nat) : ShardState :=
  match heapGet s.heap i with
  | none => s
  | some e =>
    let e' : LRUHandle := { e with refs := e.refs - 1 }
    if e'.refs = 0 then
      { s with heap := heapFree s.heap i,
               delLog := s.delLog ++ [(i, e.key, e.value)] }
    else if e'.in_cache = true ∧ e'.refs = 1 then
      let s1 := LRU_Remove s i
      { s1 with heap := heapSet s1.heap i e', lru := s1.lru ++ [i] }
    else
      { s with heap := heapSet s.heap i e' }

/-- `LRUCache::FinishErase`: the argument has already left the hash
table; unlink it from its list, clear `in_cache`, subtract its charge
from `usage_`, and drop the cache's reference. -/
def FinishEraseOp (s : ShardState) (r : Option HTEntry) : ShardState :=
  match r with
  | none => s
  | some x =>
    match heapGet s.heap x.id with
    | none => s
    | some e =>
      let s1 := LRU_Remove s x.id
      let s2 : ShardState :=
        { s1 with heap := heapSet s1.heap x.id { e with in_cache := false },
                  usage := s1.usage - e.charge }
      UnrefOp s2 x.id

/-- The eviction loop of `LRUCache::Insert`:
`while (usage_ > capacity_ && lru_.next != &lru_)` pop the oldest `lru_`
entry, remove it from the table and finish erasing it.  Explicit fuel;
`lru.length` is sufficient on reachable states. -/
def evictLoop : Nat → ShardState → ShardState
  | 0, s => s
  | fuel + 1, s =>
    if s.capacity < s.usage then
      match s.lru with
      | [] => s
      | old :: _ =>
        match heapGet s.heap old with
        | none => s
        | some e =>
          let p := s.table.remove e.key e.hash
          evictLoop fuel (FinishEraseOp { s with table := p.2 } p.1)
    else s

/-- `LRUCache::Insert`.  Returns the new state and the returned handle
(the identifier of the freshly allocated record). -/
def insertOp (s : ShardState) (k h v c : Nat) : ShardState × Nat :=
  let i := s.nextId
  let e0 : LRUHandle :=
    { key := k, hash := h, value := v, charge := c, refs := 1, in_cache := false }
  let s0 : ShardState :=
    { s with nextId := i + 1, insLog := s.insLog ++ [(i, k, v)],
             held := s.held ++ [i] }
  let s2 :=
    if 0 < s.capacity then
      let s1 : ShardState :=
        { s0 with heap := (i, { e0 with refs := 2, in_cache := true }) :: s0.heap,
                  in_use := s0.in_use ++ [i],
                  usage := s0.usage + c }
      let p := s1.table.insert { key := k, hash := h, id := i }
      FinishEraseOp { s1 with table := p.2 } p.1
    else
      { s0 with heap := (i, e0) :: s0.heap }
  (evictLoop s2.lru.length s2, i)

/-- `LRUCache::Lookup`: consult the table; on a hit, `Ref` the entry and
hand the client one more reference. -/
def lookupOp (s : ShardState) (k h : Nat) : ShardState × Option Nat :=
  match s.table.find k h with
  | none => (s, none)
  | some x =>
    let s' := RefOp s x.id
    ({ s' with held := s'.held ++ [x.id] }, some x.id)

/-- `LRUCache::Release`: the client gives a handle back. -/
def releaseOp (s : ShardState) (i : Nat) : ShardState :=
  UnrefOp { s with held := s.held.erase i } i

/-- `LRUCache::Erase`. -/
def eraseOp (s : ShardState) (k h : Nat) : ShardState :=
  let p := s.table.remove k h
  FinishEraseOp { s with table := p.2 } p.1

/-- The loop of `LRUCache::Prune`: `while (lru_.next != &lru_)` finish
erasing the oldest `lru_` entry.  Explicit fuel. -/
def pruneLoop : Nat → ShardState → ShardState
  | 0, s => s
  | fuel + 1, s =>
    match s.lru with
    | [] => s
    | old :: _ =>
      match heapGet s.heap old with
      | none => s
      | some e =>
        let p := s.table.remove e.key e.hash
        pruneLoop fuel (FinishEraseOp { s with table := p.2 } p.1)

/-- `LRUCache::Prune`. -/
def pruneOp (s : ShardState) : ShardState := pruneLoop s.lru.length s

/-- `LRUCache::TotalCharge`. -/
def totalChargeOp (s : ShardState) : Nat := s.usage

/-- The shard states a well-behaved client can produce: any sequence of
the five operations from a fresh shard, releasing only handles it
holds. -/
inductive Reach : ShardState → Prop
  | init (cap : Nat) : Reach (initState cap)
  | insert {s : ShardState} (k h v c : Nat) :
      Reach s → Reach (insertOp s k h v c).1
  | lookup {s : ShardState} (k h : Nat) :
      Reach s → Reach (lookupOp s k h).1
  | release {s : ShardState} (i : Nat) :
      Reach s → i ∈ s.held → Reach (releaseOp s i)
  | erase {s : ShardState} (k h : Nat) :
      Reach s → Reach (eraseOp s k h)
  | prune {s : ShardState} :
      Reach s → Reach (pruneOp s)

/-- The charge a list identifier contributes to `usage_`. -/
def chargeOf (hp : List (Nat × LRUHandle)) (i : Nat) : Nat :=
  match heapGet hp i with
  | some e => e.charge
  | none => 0

/-! ### List index helpers -/

theorem getD_set_self {α : Type} (l : List α) (i : Nat) (x d : α)
    (h : i < l.length) : (l.set i x).getD i d = x := by
  induction l generalizing i with
  | nil => simp at h
  | cons a t ih =>
    cases i with
    | zero => simp [List.set, List.getD]
    | succ j =>
      simp only [List.set, List.getD_cons_succ]
      exact ih j (by simpa using h)

theorem getD_set_ne {α : Type} (l : List α) (i j : Nat) (x d : α)
    (h : i ≠ j) : (l.set i x).getD j d = l.getD j d := by
  induction l generalizing i j with
  | nil => simp [List.set]
  | cons a t ih =>
    cases i with
    | zero =>
      cases j with
      | zero => exact absurd rfl h
      | succ m => simp [List.set, List.getD]
    | succ n =>
      cases j with
      | zero => simp [List.set, List.getD]
      | succ m =>
        simp only [List.set, List.getD_cons_succ]
        exact ih n m (by omega)

theorem set_getD_self {α : Type} (l : List α) (i : Nat) (d : α) :
    l.set i (l.getD i d) = l := by
  induction l generalizing i with
  | nil => simp
  | cons a t ih =>
    cases i with
    | zero => simp [List.getD]
    | succ j => simp only [List.getD_cons_succ, List.set]; rw [ih]

theorem getD_default_of_ge {α : Type} (l : List α) (i : Nat) (d : α)
    (h : l.length ≤ i) : l.getD i d = d := by
  induction l generalizing i with
  | nil => simp [List.getD]
  | cons a t ih =>
    cases i with
    | zero => simp at h
    | succ j => simpa [List.getD_cons_succ] using ih j (by simpa using h)

theorem mem_flatten_iff_getD {α : Type} (L : List (List α)) (x : α) :
    x ∈ L.flatten ↔ ∃ i, x ∈ L.getD i [] := by
  induction L with
  | nil => simp
  | cons b T ih =>
    simp only [List.flatten_cons, List.mem_append, ih]
    constructor
    · rintro (hb | ⟨i, hi⟩)
      · exact ⟨0, by simpa [List.getD] using hb⟩
      · exact ⟨i + 1, by simpa [List.getD_cons_succ] using hi⟩
    · rintro ⟨i, hi⟩
      cases i with
      | zero => exact Or.inl (by simpa [List.getD] using hi)
      | succ j => exact Or.inr ⟨j, by simpa [List.getD_cons_succ] using hi⟩

/-! ### Bucket chain lemmas -/

/-- Two chain nodes that do not collide on (key, hash). -/
def nokh (a b : HTEntry) : Prop := ¬(a.key = b.key ∧ a.hash = b.hash)

theorem bucketFind_some {b : List HTEntry} {k h : Nat} {x : HTEntry}
    (hf : bucketFind b k h = some x) : x ∈ b ∧ x.hash = h ∧ x.key = k := by
  induction b with
  | nil => simp [bucketFind] at hf
  | cons e rest ih =>
    by_cases hc : e.hash = h ∧ e.key = k
    · simp [bucketFind, hc] at hf
      exact ⟨by simp [← hf], by simp [← hf, hc.1], by simp [← hf, hc.2]⟩
    · simp [bucketFind, hc] at hf
      obtain ⟨h1, h2, h3⟩ := ih hf
      exact ⟨List.mem_cons_of_mem _ h1, h2, h3⟩

theorem bucketFind_none {b : List HTEntry} {k h : Nat}
    (hf : bucketFind b k h = none) : ∀ x ∈ b, ¬(x.hash = h ∧ x.key = k) := by
  induction b with
  | nil => simp
  | cons e rest ih =>
    by_cases hc : e.hash = h ∧ e.key = k
    · simp [bucketFind, hc] at hf
    · simp [bucketFind, hc] at hf
      intro x hx
      rcases List.mem_cons.mp hx with rfl | hx'
      · exact hc
      · exact ih hf x hx'

theorem bucketFind_of_mem {b : List HTEntry} {x : HTEntry}
    (hp : b.Pairwise nokh) (hm : x ∈ b) :
    bucketFind b x.key x.hash = some x := by
  induction b with
  | nil => simp at hm
  | cons e rest ih =>
    rcases List.mem_cons.mp hm with rfl | hm'
    · simp [bucketFind]
    · have hne : ¬(e.hash = x.hash ∧ e.key = x.key) := by
        have := (List.pairwise_cons.mp hp).1 x hm'
        intro hc
        exact this ⟨hc.2, hc.1⟩
      simp only [bucketFind, if_neg hne]
      exact ih (List.pairwise_cons.mp hp).2 hm'

theorem bucketInsert_fst (b : List HTEntry) (x : HTEntry) :
    (bucketInsert b x).1 = bucketFind b x.key x.hash := by
  induction b with
  | nil => simp [bucketInsert, bucketFind]
  | cons e rest ih =>
    by_cases hc : e.hash = x.hash ∧ e.key = x.key
    · simp [bucketInsert, bucketFind, hc]
    · simp [bucketInsert, bucketFind, hc, ih]

theorem bucketInsert_cons_pos {e : HTEntry} (rest : List HTEntry) {x : HTEntry}
    (hc : e.hash = x.hash ∧ e.key = x.key) :
    bucketInsert (e :: rest) x = (some e, x :: rest) := by
  simp [bucketInsert, hc]

theorem bucketInsert_cons_neg {e : HTEntry} (rest : List HTEntry) {x : HTEntry}
    (hc : ¬(e.hash = x.hash ∧ e.key = x.key)) :
    bucketInsert (e :: rest) x =
      ((bucketInsert rest x).1, e :: (bucketInsert rest x).2) := by
  simp [bucketInsert, hc]

theorem bucketInsert_mem {b : List HTEntry} (hp : b.Pairwise nokh) (x : HTEntry) :
    ∀ y, y ∈ (bucketInsert b x).2 ↔
      y = x ∨ (y ∈ b ∧ ¬(y.key = x.key ∧ y.hash = x.hash)) := by
  induction b with
  | nil => intro y; simp [bucketInsert]
  | cons e rest ih =>
    intro y
    have hp' := List.pairwise_cons.mp hp
    by_cases hc : e.hash = x.hash ∧ e.key = x.key
    · rw [bucketInsert_cons_pos rest hc]
      constructor
      · intro hy
        rcases List.mem_cons.mp hy with rfl | hy'
        · exact Or.inl rfl
        · refine Or.inr ⟨List.mem_cons_of_mem _ hy', fun hyx => ?_⟩
          exact hp'.1 y hy' ⟨hc.2.trans hyx.1.symm, hc.1.trans hyx.2.symm⟩
      · rintro (rfl | ⟨hy, hyx⟩)
        · exact List.mem_cons_self _ _
        · rcases List.mem_cons.mp hy with rfl | hy'
          · exact absurd ⟨hc.2, hc.1⟩ hyx
          · exact List.mem_cons_of_mem _ hy'
    · rw [bucketInsert_cons_neg rest hc]
      rw [List.mem_cons, ih hp'.2 y]
      constructor
      · rintro (rfl | (rfl | ⟨hy, hyx⟩))
        · exact Or.inr ⟨List.mem_cons_self _ _, fun hyx => hc ⟨hyx.2, hyx.1⟩⟩
        · exact Or.inl rfl
        · exact Or.inr ⟨List.mem_cons_of_mem _ hy, hyx⟩
      · rintro (rfl | ⟨hy, hyx⟩)
        · exact Or.inr (Or.inl rfl)
        · rcases List.mem_cons.mp hy with rfl | hy'
          · exact Or.inl rfl
          · exact Or.inr (Or.inr ⟨hy', hyx⟩)

theorem bucketInsert_pairwise {b : List HTEntry} (hp : b.Pairwise nokh)
    (x : HTEntry) : (bucketInsert b x).2.Pairwise nokh := by
  induction b with
  | nil => simp [bucketInsert, nokh]
  | cons e rest ih =>
    have hp' := List.pairwise_cons.mp hp
    by_cases hc : e.hash = x.hash ∧ e.key = x.key
    · rw [bucketInsert_cons_pos rest hc]
      refine List.pairwise_cons.mpr ⟨fun y hy hxy => ?_, hp'.2⟩
      exact hp'.1 y hy ⟨hc.2.trans hxy.1, hc.1.trans hxy.2⟩
    · rw [bucketInsert_cons_neg rest hc]
      refine List.pairwise_cons.mpr ⟨fun y hy hey => ?_, ih hp'.2⟩
      rcases (bucketInsert_mem hp'.2 x y).mp hy with rfl | ⟨hy', _⟩
      · exact hc ⟨hey.2, hey.1⟩
      · exact hp'.1 y hy' hey

theorem bucketRemove_fst (b : List HTEntry) (k h : Nat) :
    (bucketRemove b k h).1 = bucketFind b k h := by
  induction b with
  | nil => simp [bucketRemove, bucketFind]
  | cons e rest ih =>
    by_cases hc : e.hash = h ∧ e.key = k
    · simp [bucketRemove, bucketFind, hc]
    · simp [bucketRemove, bucketFind, hc, ih]

theorem bucketRemove_none {b : List HTEntry} {k h : Nat}
    (hf : bucketFind b k h = none) : (bucketRemove b k h).2 = b := by
  induction b with
  | nil => simp [bucketRemove]
  | cons e rest ih =>
    by_cases hc : e.hash = h ∧ e.key = k
    · simp [bucketFind, hc] at hf
    · simp only [bucketFind, if_neg hc] at hf
      simp [bucketRemove, hc, ih hf]

theorem bucketRemove_sublist (b : List HTEntry) (k h : Nat) :
    (bucketRemove b k h).2.Sublist b := by
  induction b with
  | nil => simp [bucketRemove]
  | cons e rest ih =>
    by_cases hc : e.hash = h ∧ e.key = k
    · simp only [bucketRemove, if_pos hc]
      exact (List.sublist_cons_self e rest)
    · simp only [bucketRemove, if_neg hc]
      exact List.Sublist.cons₂ e ih

theorem bucketRemove_mem {b : List HTEntry} (hp : b.Pairwise nokh) {k h : Nat}
    {x : HTEntry} (hx : (bucketRemove b k h).1 = some x) :
    ∀ y, y ∈ (bucketRemove b k h).2 ↔ y ∈ b ∧ y ≠ x := by
  induction b with
  | nil => simp [bucketRemove] at hx
  | cons e rest ih =>
    have hp' := List.pairwise_cons.mp hp
    by_cases hc : e.hash = h ∧ e.key = k
    · simp only [bucketRemove, if_pos hc] at hx ⊢
      have hex : e = x := by simpa using hx
      subst hex
      intro y
      constructor
      · intro hy
        refine ⟨List.mem_cons_of_mem _ hy, ?_⟩
        rintro rfl
        exact hp'.1 y hy ⟨rfl, rfl⟩
      · rintro ⟨hy, hne⟩
        rcases List.mem_cons.mp hy with rfl | hy'
        · exact absurd rfl hne
        · exact hy'
    · simp only [bucketRemove, if_neg hc] at hx ⊢
      intro y
      have hxmem : x ∈ rest ∧ x.hash = h ∧ x.key = k := by
        have := bucketRemove_fst rest k h
        rw [this] at hx
        exact bucketFind_some hx
      constructor
      · intro hy
        rcases List.mem_cons.mp hy with rfl | hy'
        · refine ⟨List.mem_cons_self _ _, ?_⟩
          rintro rfl
          exact hc ⟨hxmem.2.1, hxmem.2.2⟩
        · have := (ih hp'.2 hx y).mp hy'
          exact ⟨List.mem_cons_of_mem _ this.1, this.2⟩
      · rintro ⟨hy, hne⟩
        rcases List.mem_cons.mp hy with rfl | hy'
        · exact List.mem_cons_self _ _
        · exact List.mem_cons_of_mem _ ((ih hp'.2 hx y).mpr ⟨hy', hne⟩)

/-! ### The resize length: smallest power of two that fits -/

theorem growLength_ge (f n e : Nat) : n ≤ growLength f n e := by
  induction f generalizing n with
  | zero => exact Nat.le_refl n
  | succ f ih =>
    simp only [growLength]
    split
    · exact le_trans (by omega) (ih (n * 2))
    · exact Nat.le_refl n

theorem growLength_pow2 (f n e : Nat) (h : ∃ k, n = 2 ^ k) :
    ∃ k, growLength f n e = 2 ^ k := by
  induction f generalizing n with
  | zero => exact h
  | succ f ih =>
    simp only [growLength]
    split
    · refine ih (n * 2) ?_
      obtain ⟨k, rfl⟩ := h
      exact ⟨k + 1, by ring⟩
    · exact h

theorem growLength_reaches (f e : Nat) : ∀ n, 0 < n → e ≤ n * 2 ^ f →
    e ≤ growLength f n e := by
  induction f with
  | zero => intro n _ hf; simpa [growLength] using hf
  | succ f ih =>
    intro n hn hf
    simp only [growLength]
    split
    · refine ih (n * 2) (by omega) ?_
      calc e ≤ n * 2 ^ (f + 1) := hf
        _ = n * 2 * 2 ^ f := by ring
    · omega

theorem growLength_lt_two_mul (f e : Nat) : ∀ n,
    growLength f n e = n ∨ growLength f n e < 2 * e := by
  induction f with
  | zero => intro n; exact Or.inl rfl
  | succ f ih =>
    intro n
    simp only [growLength]
    split
    · rcases ih (n * 2) with he | hlt
      · right; rw [he]; omega
      · exact Or.inr hlt
    · exact Or.inl rfl

/-- The value computed by `Resize`'s doubling loop is the least power of
two that is at least the element count, never less than 4. -/
theorem resizeLength_spec (e : Nat) :
    (∃ k, resizeLength e = 2 ^ k) ∧ 4 ≤ resizeLength e ∧ e ≤ resizeLength e ∧
      ∀ m, (∃ j, m = 2 ^ j) → 4 ≤ m → e ≤ m → resizeLength e ≤ m := by
  have h1 : ∃ k, resizeLength e = 2 ^ k := growLength_pow2 e 4 e ⟨2, rfl⟩
  have h2 : 4 ≤ resizeLength e := growLength_ge e 4 e
  have h3 : e ≤ resizeLength e := by
    refine growLength_reaches e e 4 (by omega) ?_
    have := Nat.lt_two_pow e
    have h4 : (2:Nat) ^ e ≤ 4 * 2 ^ e := Nat.le_mul_of_pos_left _ (by omega)
    omega
  refine ⟨h1, h2, h3, ?_⟩
  rintro m ⟨j, rfl⟩ hm4 hme
  rcases growLength_lt_two_mul e e 4 with he | hlt
  · rw [resizeLength, he]; exact hm4
  · obtain ⟨k, hk⟩ := h1
    have hlt2 : (2:Nat) ^ k < 2 ^ (j + 1) := by
      rw [← hk]
      calc resizeLength e < 2 * e := hlt
        _ ≤ 2 * 2 ^ j := by omega
        _ = 2 ^ (j + 1) := by ring
    have hkj : k ≤ j := by
      have := (Nat.pow_lt_pow_iff_right (by omega : 1 < 2)).mp hlt2
      omega
    rw [hk]
    exact Nat.pow_le_pow_right (by omega) hkj

/-! ### Rehashing -/

theorem getD_replicate_nil (n i : Nat) :
    (List.replicate n ([] : List HTEntry)).getD i [] = [] := by
  induction n generalizing i with
  | zero => simp [List.getD]
  | succ m ih =>
    cases i with
    | zero => simp [List.replicate, List.getD]
    | succ j => simp only [List.replicate, List.getD_cons_succ]; exact ih j

theorem rehash_length (es : List HTEntry) (nl : List (List HTEntry)) :
    (rehash es nl).length = nl.length := by
  induction es generalizing nl with
  | nil => rfl
  | cons e rest ih =>
    simp only [rehash]
    rw [ih, List.length_set]

theorem rehash_mem (es : List HTEntry) (nl : List (List HTEntry))
    (hlen : 0 < nl.length) (x : HTEntry) (i : Nat) :
    x ∈ (rehash es nl).getD i [] ↔
      (x ∈ es ∧ x.hash &&& (nl.length - 1) = i) ∨ x ∈ nl.getD i [] := by
  induction es generalizing nl with
  | nil => simp [rehash]
  | cons e rest ih =>
    simp only [rehash]
    have hjlt : e.hash &&& (nl.length - 1) < nl.length :=
      lt_of_le_of_lt Nat.and_le_right (by omega)
    have hlen' :
        (nl.set (e.hash &&& (nl.length - 1))
          (e :: nl.getD (e.hash &&& (nl.length - 1)) [])).length = nl.length :=
      List.length_set ..
    rw [ih _ (by rw [hlen']; exact hlen), hlen']
    by_cases hij : e.hash &&& (nl.length - 1) = i
    · rw [← hij, getD_set_self _ _ _ _ hjlt]
      simp only [List.mem_cons]
      constructor
      · rintro (⟨hr, hx⟩ | (rfl | hb))
        · exact Or.inl ⟨Or.inr hr, hx⟩
        · exact Or.inl ⟨Or.inl rfl, rfl⟩
        · exact Or.inr hb
      · rintro (⟨(rfl | hr), hx⟩ | hb)
        · exact Or.inr (Or.inl rfl)
        · exact Or.inl ⟨hr, hx⟩
        · exact Or.inr (Or.inr hb)
    · rw [getD_set_ne _ _ _ _ _ hij]
      simp only [List.mem_cons]
      constructor
      · rintro (⟨hr, hx⟩ | hb)
        · exact Or.inl ⟨Or.inr hr, hx⟩
        · exact Or.inr hb
      · rintro (⟨(rfl | hr), hx⟩ | hb)
        · exact absurd hx hij
        · exact Or.inl ⟨hr, hx⟩
        · exact Or.inr hb

theorem nokh_symm {a b : HTEntry} (h : nokh a b) : nokh b a := by
  intro hc
  exact h ⟨hc.1.symm, hc.2.symm⟩

theorem rehash_pairwise (es : List HTEntry) (nl : List (List HTEntry))
    (hlen : 0 < nl.length)
    (hes : es.Pairwise nokh)
    (hnl : ∀ i, (nl.getD i []).Pairwise nokh)
    (hcross : ∀ x ∈ es, ∀ i, ∀ y ∈ nl.getD i [], nokh x y) :
    ∀ i, ((rehash es nl).getD i []).Pairwise nokh := by
  induction es generalizing nl with
  | nil => exact hnl
  | cons e rest ih =>
    simp only [rehash]
    have hp := List.pairwise_cons.mp hes
    have hjlt : e.hash &&& (nl.length - 1) < nl.length :=
      lt_of_le_of_lt Nat.and_le_right (by omega)
    refine ih _ (by rw [List.length_set]; exact hlen) hp.2 ?_ ?_
    · intro i
      by_cases hij : e.hash &&& (nl.length - 1) = i
      · rw [← hij, getD_set_self _ _ _ _ hjlt]
        refine List.pairwise_cons.mpr ⟨?_, hnl _⟩
        intro y hy
        exact hcross e (List.mem_cons_self _ _) _ y hy
      · rw [getD_set_ne _ _ _ _ _ hij]
        exact hnl i
    · intro x hx i y hy
      by_cases hij : e.hash &&& (nl.length - 1) = i
      · rw [← hij, getD_set_self _ _ _ _ hjlt] at hy
        rcases List.mem_cons.mp hy with rfl | hy'
        · exact nokh_symm (hp.1 x hx)
        · exact hcross x (List.mem_cons_of_mem _ hx) _ y hy'
      · rw [getD_set_ne _ _ _ _ _ hij] at hy
        exact hcross x (List.mem_cons_of_mem _ hx) i y hy

/-! ### Hash table well-formedness -/

/-- The structural invariant `HandleTable` maintains: a power-of-two
bucket count (at least 4, as produced by `Resize`), every node chained in
the bucket its hash selects, and no two nodes of a chain sharing
(key, hash). -/
structure HandleTable.WF (t : HandleTable) : Prop where
  len_pow : ∃ k, t.length = 2 ^ k
  len_ge : 4 ≤ t.length
  list_len : t.list.length = t.length
  placed : ∀ i, ∀ e ∈ t.list.getD i [], e.hash &&& (t.length - 1) = i
  uniq : ∀ i, (t.list.getD i []).Pairwise nokh

theorem HandleTable.mem_entries_iff (t : HandleTable) (x : HTEntry) :
    x ∈ t.entries ↔ ∃ i, x ∈ t.list.getD i [] :=
  mem_flatten_iff_getD t.list x

theorem HandleTable.WF.idx_lt {t : HandleTable} (w : t.WF) (h : Nat) :
    h &&& (t.length - 1) < t.length :=
  lt_of_le_of_lt Nat.and_le_right (by have := w.len_ge; omega)

theorem HandleTable.WF.mem_bucket {t : HandleTable} (w : t.WF) {x : HTEntry}
    (hx : x ∈ t.entries) :
    x ∈ t.list.getD (x.hash &&& (t.length - 1)) [] := by
  obtain ⟨i, hi⟩ := (t.mem_entries_iff x).mp hx
  rw [w.placed i x hi]
  exact hi

theorem HandleTable.find_of_mem {t : HandleTable} (w : t.WF) {x : HTEntry}
    (hx : x ∈ t.entries) : t.find x.key x.hash = some x :=
  bucketFind_of_mem (w.uniq _) (w.mem_bucket hx)

theorem HandleTable.find_some_spec {t : HandleTable} {k h : Nat}
    {x : HTEntry} (hf : t.find k h = some x) :
    x ∈ t.entries ∧ x.hash = h ∧ x.key = k := by
  obtain ⟨hm, hh, hk⟩ := bucketFind_some hf
  exact ⟨(t.mem_entries_iff x).mpr ⟨_, hm⟩, hh, hk⟩

theorem HandleTable.find_none_spec {t : HandleTable} (w : t.WF) {k h : Nat}
    (hf : t.find k h = none) : ∀ x ∈ t.entries, ¬(x.key = k ∧ x.hash = h) := by
  rintro x hx ⟨hk, hh⟩
  have := t.find_of_mem w hx
  rw [hk, hh, hf] at this
  exact Option.noConfusion this

theorem HandleTable.entries_uniq {t : HandleTable} (w : t.WF) {x y : HTEntry}
    (hx : x ∈ t.entries) (hy : y ∈ t.entries) (hk : x.key = y.key)
    (hh : x.hash = y.hash) : x = y := by
  have fx := t.find_of_mem w hx
  have fy := t.find_of_mem w hy
  rw [hk, hh, fy] at fx
  exact (Option.some.injEq ..).mp fx.symm

theorem HandleTable.WF.flatten_pairwise {t : HandleTable} (w : t.WF) :
    t.entries.Pairwise nokh := by
  rw [HandleTable.entries, List.pairwise_flatten]
  constructor
  · intro b hb
    obtain ⟨i, hi⟩ := List.mem_iff_get.mp hb
    have : t.list.getD i.1 [] = b := by
      rw [List.getD_eq_get t.list [] i.2]
      exact hi
    rw [← this]
    exact w.uniq i.1
  · rw [List.pairwise_iff_get]
    intro i j hij x hx y hy
    have hxi : t.list.getD i.1 [] = t.list.get i := List.getD_eq_get t.list [] i.2
    have hyj : t.list.getD j.1 [] = t.list.get j := List.getD_eq_get t.list [] j.2
    have hpx := w.placed i.1 x (by rw [hxi]; exact hx)
    have hpy := w.placed j.1 y (by rw [hyj]; exact hy)
    intro hc
    rw [hc.2] at hpx
    rw [hpx] at hpy
    exact absurd (Fin.ext hpy.symm) (Fin.ne_of_gt hij)

/-- `Resize` preserves the chained nodes and restores the structural
invariant for the new bucket count. -/
theorem HandleTable.resize_spec {t : HandleTable} (hflat : t.entries.Pairwise nokh) :
    t.resize.WF ∧ t.resize.elems = t.elems ∧
      t.resize.length = resizeLength t.elems ∧
      (∀ y, y ∈ t.resize.entries ↔ y ∈ t.entries) := by
  obtain ⟨hpow, h4, _, _⟩ := resizeLength_spec t.elems
  have hrep : (List.replicate (resizeLength t.elems) ([] : List HTEntry)).length =
      resizeLength t.elems := List.length_replicate ..
  have hlen0 : 0 < (List.replicate (resizeLength t.elems) ([] : List HTEntry)).length := by
    rw [hrep]; omega
  have hmem : ∀ (x : HTEntry) (i : Nat),
      x ∈ t.resize.list.getD i [] ↔
        x ∈ t.entries ∧ x.hash &&& (resizeLength t.elems - 1) = i := by
    intro x i
    show x ∈ (rehash t.list.flatten _).getD i [] ↔ _
    rw [rehash_mem _ _ hlen0 x i, hrep, getD_replicate_nil]
    simp [HandleTable.entries]
  have hlen : t.resize.list.length = resizeLength t.elems := by
    show (rehash t.list.flatten _).length = _
    rw [rehash_length, hrep]
  refine ⟨⟨hpow, h4, hlen, ?_, ?_⟩, rfl, rfl, ?_⟩
  · intro i e he
    exact ((hmem e i).mp he).2
  · intro i
    have := rehash_pairwise t.list.flatten
      (List.replicate (resizeLength t.elems) []) hlen0 hflat
      (fun j => by rw [getD_replicate_nil]; exact List.Pairwise.nil)
      (fun x _ j y hy => by rw [getD_replicate_nil] at hy; cases hy)
    exact this i
  · intro y
    rw [HandleTable.entries, mem_flatten_iff_getD]
    constructor
    · rintro ⟨i, hi⟩
      exact ((hmem y i).mp hi).1
    · intro hy
      exact ⟨y.hash &&& (resizeLength t.elems - 1), (hmem y _).mpr ⟨hy, rfl⟩⟩

theorem set_bucket_mem (L : List (List HTEntry)) (idx : Nat)
    (hlt : idx < L.length) (b' : List HTEntry) (y : HTEntry) :
    y ∈ (L.set idx b').flatten ↔
      y ∈ b' ∨ ∃ i, i ≠ idx ∧ y ∈ L.getD i [] := by
  rw [mem_flatten_iff_getD]
  constructor
  · rintro ⟨i, hi⟩
    by_cases h : i = idx
    · subst h
      rw [getD_set_self _ _ _ _ hlt] at hi
      exact Or.inl hi
    · rw [getD_set_ne _ _ _ _ _ (fun hh => h hh.symm)] at hi
      exact Or.inr ⟨i, h, hi⟩
  · rintro (hb | ⟨i, hne, hi⟩)
    · exact ⟨idx, by rw [getD_set_self _ _ _ _ hlt]; exact hb⟩
    · exact ⟨i, by rw [getD_set_ne _ _ _ _ _ (fun hh => hne hh.symm)]; exact hi⟩

/-- Behaviour of `HandleTable::Remove` on a well-formed table: it returns
exactly what `Lookup` would, removes exactly that node, and preserves the
structural invariant. -/
theorem HandleTable.remove_spec {t : HandleTable} (w : t.WF) (k h : Nat) :
    (t.remove k h).1 = t.find k h ∧ (t.remove k h).2.WF ∧
      (t.remove k h).2.length = t.length ∧
      ((t.remove k h).1 = none → (t.remove k h).2 = t) ∧
      (∀ x, (t.remove k h).1 = some x →
        x ∈ t.entries ∧ x.key = k ∧ x.hash = h ∧
          (t.remove k h).2.elems = t.elems - 1 ∧
          (∀ y, y ∈ (t.remove k h).2.entries ↔ y ∈ t.entries ∧ y ≠ x)) := by
  have hlt : h &&& (t.length - 1) < t.list.length := by
    rw [w.list_len]; exact w.idx_lt h
  have hfst : (bucketRemove (t.list.getD (h &&& (t.length - 1)) []) k h).1 =
      t.find k h := bucketRemove_fst ..
  cases hp : (bucketRemove (t.list.getD (h &&& (t.length - 1)) []) k h).1 with
  | none =>
    have hfind : t.find k h = none := by rw [← hfst, hp]
    have hb : (bucketRemove (t.list.getD (h &&& (t.length - 1)) []) k h).2 =
        t.list.getD (h &&& (t.length - 1)) [] := bucketRemove_none hfind
    have ht : t.remove k h = (none, t) := by
      simp only [HandleTable.remove, hp, hb, set_getD_self]
    rw [ht]
    exact ⟨hfind.symm, w, rfl, fun _ => rfl, fun x hx => Option.noConfusion hx⟩
  | some x =>
    have hfind : t.find k h = some x := by rw [← hfst, hp]
    have hres : t.remove k h =
        (some x, { t with list := t.list.set (h &&& (t.length - 1)) (bucketRemove (t.list.getD (h &&& (t.length - 1)) []) k h).2, elems := t.elems - 1 }) := by
      simp only [HandleTable.remove, hp]
    obtain ⟨hxmem, hxh, hxk⟩ := t.find_some_spec hfind
    have hbmem := bucketRemove_mem (w.uniq (h &&& (t.length - 1))) hp
    have hwf2 : (t.remove k h).2.WF := by
      rw [hres]
      refine ⟨w.len_pow, w.len_ge, ?_, ?_, ?_⟩
      · show (t.list.set _ _).length = t.length
        rw [List.length_set]; exact w.list_len
      · intro i e he
        by_cases hie : i = h &&& (t.length - 1)
        · subst hie
          rw [getD_set_self _ _ _ _ hlt] at he
          exact w.placed _ e ((hbmem e).mp he).1
        · rw [getD_set_ne _ _ _ _ _ (fun hh => hie hh.symm)] at he
          exact w.placed i e he
      · intro i
        by_cases hie : i = h &&& (t.length - 1)
        · subst hie
          rw [getD_set_self _ _ _ _ hlt]
          exact (w.uniq _).sublist (bucketRemove_sublist ..)
        · rw [getD_set_ne _ _ _ _ _ (fun hh => hie hh.symm)]
          exact w.uniq i
    refine ⟨by rw [hres, hfind], hwf2, by rw [hres], ?_, ?_⟩
    · intro habs
      rw [hres] at habs
      simp at habs
    · rintro x' hx'
      have hxx : x' = x := by
        rw [hres] at hx'
        exact ((Option.some.injEq ..).mp hx').symm
      subst hxx
      refine ⟨hxmem, hxk, hxh, by rw [hres], ?_⟩
      intro y
      have hent : (t.remove k h).2.entries =
          (t.list.set (h &&& (t.length - 1)) (bucketRemove (t.list.getD (h &&& (t.length - 1)) []) k h).2).flatten := by
        rw [hres]; rfl
      rw [hent, set_bucket_mem _ _ hlt]
      constructor
      · rintro (hb | ⟨i, hne, hi⟩)
        · have := (hbmem y).mp hb
          exact ⟨(t.mem_entries_iff y).mpr ⟨_, this.1⟩, this.2⟩
        · refine ⟨(t.mem_entries_iff y).mpr ⟨i, hi⟩, ?_⟩
          rintro rfl
          have := w.placed i y hi
          rw [hxh] at this
          exact hne this.symm
      · rintro ⟨hy, hne⟩
        obtain ⟨i, hi⟩ := (t.mem_entries_iff y).mp hy
        by_cases hie : i = h &&& (t.length - 1)
        · subst hie
          exact Or.inl ((hbmem y).mpr ⟨hi, hne⟩)
        · exact Or.inr ⟨i, hie, hi⟩

/-- Behaviour of `HandleTable::Insert` on a well-formed table: the
displaced node is exactly what `Lookup` would have returned, the new node
replaces every (key, hash) collision, the count grows only on a fresh
(key, hash), and the resize policy of `Resize` applies. -/
theorem HandleTable.insert_spec {t : HandleTable} (w : t.WF) (x : HTEntry) :
    (t.insert x).1 = t.find x.key x.hash ∧ (t.insert x).2.WF ∧
      (∀ y, y ∈ (t.insert x).2.entries ↔
        y = x ∨ (y ∈ t.entries ∧ ¬(y.key = x.key ∧ y.hash = x.hash))) ∧
      ((t.insert x).1 = none →
        (t.insert x).2.elems = t.elems + 1 ∧
        (t.elems + 1 ≤ t.length → (t.insert x).2.length = t.length) ∧
        (t.length < t.elems + 1 →
          (t.insert x).2.length = resizeLength (t.elems + 1))) ∧
      (∀ o, (t.insert x).1 = some o →
        (t.insert x).2.elems = t.elems ∧ (t.insert x).2.length = t.length) := by
  have hlt : x.hash &&& (t.length - 1) < t.list.length := by
    rw [w.list_len]; exact w.idx_lt x.hash
  have hfst : (bucketInsert (t.list.getD (x.hash &&& (t.length - 1)) []) x).1 =
      t.find x.key x.hash := bucketInsert_fst ..
  have hbmem := bucketInsert_mem (w.uniq (x.hash &&& (t.length - 1))) x
  have hbpair := bucketInsert_pairwise (w.uniq (x.hash &&& (t.length - 1))) x
  -- the table with only the bucket updated
  have hwf1 : HandleTable.WF { t with list := t.list.set (x.hash &&& (t.length - 1)) (bucketInsert (t.list.getD (x.hash &&& (t.length - 1)) []) x).2 } := by
    refine ⟨w.len_pow, w.len_ge, ?_, ?_, ?_⟩
    · show (t.list.set _ _).length = t.length
      rw [List.length_set]; exact w.list_len
    · intro i e he
      by_cases hie : i = x.hash &&& (t.length - 1)
      · subst hie
        rw [getD_set_self _ _ _ _ hlt] at he
        rcases (hbmem e).mp he with rfl | ⟨he', _⟩
        · rfl
        · exact w.placed _ e he'
      · rw [getD_set_ne _ _ _ _ _ (fun hh => hie hh.symm)] at he
        exact w.placed i e he
    · intro i
      by_cases hie : i = x.hash &&& (t.length - 1)
      · subst hie
        rw [getD_set_self _ _ _ _ hlt]
        exact hbpair
      · rw [getD_set_ne _ _ _ _ _ (fun hh => hie hh.symm)]
        exact w.uniq i
  have hmem1 : ∀ y, y ∈ (t.list.set (x.hash &&& (t.length - 1)) (bucketInsert (t.list.getD (x.hash &&& (t.length - 1)) []) x).2).flatten ↔ y = x ∨ (y ∈ t.entries ∧ ¬(y.key = x.key ∧ y.hash = x.hash)) := by
    intro y
    rw [set_bucket_mem _ _ hlt]
    constructor
    · rintro (hb | ⟨i, hne, hi⟩)
      · rcases (hbmem y).mp hb with rfl | ⟨hy', hyx⟩
        · exact Or.inl rfl
        · exact Or.inr ⟨(t.mem_entries_iff y).mpr ⟨_, hy'⟩, hyx⟩
      · refine Or.inr ⟨(t.mem_entries_iff y).mpr ⟨i, hi⟩, ?_⟩
        rintro ⟨hk, hh⟩
        have := w.placed i y hi
        rw [hh] at this
        exact hne this.symm
    · rintro (rfl | ⟨hy, hyx⟩)
      · exact Or.inl ((hbmem y).mpr (Or.inl rfl))
      · obtain ⟨i, hi⟩ := (t.mem_entries_iff y).mp hy
        by_cases hie : i = x.hash &&& (t.length - 1)
        · subst hie
          exact Or.inl ((hbmem y).mpr (Or.inr ⟨hi, hyx⟩))
        · exact Or.inr ⟨i, hie, hi⟩
  cases hp : (bucketInsert (t.list.getD (x.hash &&& (t.length - 1)) []) x).1 with
  | some o =>
    have hres : t.insert x =
        (some o, { t with list := t.list.set (x.hash &&& (t.length - 1)) (bucketInsert (t.list.getD (x.hash &&& (t.length - 1)) []) x).2 }) := by
      simp only [HandleTable.insert, hp]
    refine ⟨by rw [hres, ← hfst, hp], by rw [hres]; exact hwf1, ?_, ?_, ?_⟩
    · intro y
      rw [hres]
      exact hmem1 y
    · intro habs
      rw [hres] at habs
      simp at habs
    · intro o' _
      rw [hres]
      exact ⟨rfl, rfl⟩
  | none =>
    by_cases hgrow : t.length < t.elems + 1
    · have hres : t.insert x =
          (none, HandleTable.resize { t with list := t.list.set (x.hash &&& (t.length - 1)) (bucketInsert (t.list.getD (x.hash &&& (t.length - 1)) []) x).2, elems := t.elems + 1 }) := by
        simp only [HandleTable.insert, hp, if_pos hgrow]
      have hwf2 : HandleTable.WF { t with list := t.list.set (x.hash &&& (t.length - 1)) (bucketInsert (t.list.getD (x.hash &&& (t.length - 1)) []) x).2, elems := t.elems + 1 } :=
        ⟨hwf1.len_pow, hwf1.len_ge, hwf1.list_len, hwf1.placed, hwf1.uniq⟩
      obtain ⟨hrwf, hrelems, hrlen, hrmem⟩ := HandleTable.resize_spec hwf2.flatten_pairwise
      refine ⟨by rw [hres, ← hfst, hp], by rw [hres]; exact hrwf, ?_, ?_, ?_⟩
      · intro y
        rw [hres]
        show y ∈ (HandleTable.resize _).entries ↔ _
        rw [hrmem y]
        exact hmem1 y
      · intro _
        refine ⟨by rw [hres]; exact hrelems, fun hc => absurd hc (by omega), ?_⟩
        intro _
        rw [hres]
        exact hrlen
      · intro o habs
        rw [hres] at habs
        simp at habs
    · have hres : t.insert x =
          (none, { t with list := t.list.set (x.hash &&& (t.length - 1)) (bucketInsert (t.list.getD (x.hash &&& (t.length - 1)) []) x).2, elems := t.elems + 1 }) := by
        simp only [HandleTable.insert, hp, if_neg hgrow]
      refine ⟨by rw [hres, ← hfst, hp], ?_, ?_, ?_, ?_⟩
      · rw [hres]
        exact ⟨hwf1.len_pow, hwf1.len_ge, hwf1.list_len, hwf1.placed, hwf1.uniq⟩
      · intro y
        rw [hres]
        exact hmem1 y
      · intro _
        exact ⟨by rw [hres], fun _ => by rw [hres], fun hc => absurd hc hgrow⟩
      · intro o habs
        rw [hres] at habs
        simp at habs

theorem HandleTable.init_eq :
    HandleTable.init = { length := 4, elems := 0, list := [[], [], [], []] } := rfl

theorem HandleTable.init_WF : HandleTable.init.WF := by
  have hgd : ∀ i, (HandleTable.init.list.getD i ([] : List HTEntry)) = [] := by
    intro i
    by_cases hi : i < 4
    · interval_cases i <;> rfl
    · exact getD_default_of_ge _ _ _ (by rw [HandleTable.init_eq]; simpa using by omega)
  refine ⟨⟨2, rfl⟩, le_refl 4, rfl, ?_, ?_⟩
  · intro i e he
    rw [hgd i] at he
    cases he
  · intro i
    rw [hgd i]
    exact List.Pairwise.nil

theorem HandleTable.init_entries : HandleTable.init.entries = [] := rfl

/-! ### Heap lemmas -/

/-- The identifiers of the live heap records. -/
def heapIds (hp : List (Nat × LRUHandle)) : List Nat := hp.map Prod.fst

theorem heapGet_none_iff (hp : List (Nat × LRUHandle)) (i : Nat) :
    heapGet hp i = none ↔ i ∉ heapIds hp := by
  induction hp with
  | nil => simp [heapGet, heapIds]
  | cons p rest ih =>
    by_cases h : p.1 = i
    · subst h
      simp [heapGet, heapIds]
    · simp [heapGet, h, heapIds] at ih ⊢
      exact ⟨fun hg => ⟨fun he => h he.symm, (ih.mp hg)⟩, fun hc => ih.mpr hc.2⟩

theorem heapGet_some_mem {hp : List (Nat × LRUHandle)} {i : Nat} {e : LRUHandle}
    (h : heapGet hp i = some e) : (i, e) ∈ hp := by
  induction hp with
  | nil => simp [heapGet] at h
  | cons p rest ih =>
    obtain ⟨p1, p2⟩ := p
    by_cases hc : p1 = i
    · simp only [heapGet, if_pos hc] at h
      subst hc
      rw [← (Option.some.injEq ..).mp h]
      exact List.mem_cons_self _ _
    · simp only [heapGet, if_neg hc] at h
      exact List.mem_cons_of_mem _ (ih h)

theorem heapGet_some_mem_ids {hp : List (Nat × LRUHandle)} {i : Nat}
    {e : LRUHandle} (h : heapGet hp i = some e) : i ∈ heapIds hp := by
  by_contra hc
  rw [← heapGet_none_iff hp i] at hc
  rw [h] at hc
  exact Option.noConfusion hc

theorem heapSet_ids (hp : List (Nat × LRUHandle)) (i : Nat) (e : LRUHandle) :
    heapIds (heapSet hp i e) = heapIds hp := by
  induction hp with
  | nil => rfl
  | cons p rest ih =>
    by_cases h : p.1 = i
    · simp [heapSet, h, heapIds]
    · simp [heapSet, h, heapIds] at ih ⊢
      exact ih

theorem heapGet_set_self {hp : List (Nat × LRUHandle)} {i : Nat}
    (hin : i ∈ heapIds hp) (e : LRUHandle) :
    heapGet (heapSet hp i e) i = some e := by
  induction hp with
  | nil => simp [heapIds] at hin
  | cons p rest ih =>
    by_cases h : p.1 = i
    · simp [heapSet, h, heapGet]
    · have : i ∈ heapIds rest := by
        simp [heapIds] at hin ⊢
        rcases hin with he | hr
        · exact absurd he.symm h
        · exact hr
      simp only [heapSet, if_neg h, heapGet, if_neg h]
      exact ih this

theorem heapGet_set_ne (hp : List (Nat × LRUHandle)) (i j : Nat) (e : LRUHandle)
    (h : j ≠ i) : heapGet (heapSet hp i e) j = heapGet hp j := by
  induction hp with
  | nil => rfl
  | cons p rest ih =>
    by_cases hc : p.1 = i
    · simp only [heapSet, if_pos hc, heapGet]
      rw [if_neg (fun he => h he.symm), if_neg (fun hj => h (hc.symm.trans hj).symm)]
    · simp only [heapSet, if_neg hc, heapGet]
      by_cases hj : p.1 = j
      · rw [if_pos hj, if_pos hj]
      · rw [if_neg hj, if_neg hj]
        exact ih

theorem heapFree_ids (hp : List (Nat × LRUHandle)) (i : Nat) :
    heapIds (heapFree hp i) = (heapIds hp).erase i := by
  induction hp with
  | nil => rfl
  | cons p rest ih =>
    by_cases h : p.1 = i
    · simp [heapFree, h, heapIds, List.erase_cons]
    · simp only [heapFree, if_neg h, heapIds, List.map_cons, List.erase_cons]
      rw [if_neg (by simpa using h)]
      simp [heapIds] at ih
      rw [ih]

theorem heapGet_free_self {hp : List (Nat × LRUHandle)}
    (hnd : (heapIds hp).Nodup) (i : Nat) : heapGet (heapFree hp i) i = none := by
  rw [heapGet_none_iff, heapFree_ids]
  intro hc
  exact (hnd.not_mem_erase hc).elim

theorem heapGet_free_ne (hp : List (Nat × LRUHandle)) (i j : Nat)
    (h : j ≠ i) : heapGet (heapFree hp i) j = heapGet hp j := by
  induction hp with
  | nil => rfl
  | cons p rest ih =>
    by_cases hc : p.1 = i
    · simp only [heapFree, if_pos hc, heapGet]
      rw [if_neg (fun he => h (he.symm.trans hc))]
    · simp only [heapFree, if_neg hc, heapGet]
      by_cases hj : p.1 = j
      · rw [if_pos hj, if_pos hj]
      · rw [if_neg hj, if_neg hj]
        exact ih

theorem heapGet_cons_self (hp : List (Nat × LRUHandle)) (i : Nat) (e : LRUHandle) :
    heapGet ((i, e) :: hp) i = some e := by
  simp [heapGet]

theorem heapGet_cons_ne (hp : List (Nat × LRUHandle)) (i j : Nat) (e : LRUHandle)
    (h : j ≠ i) : heapGet ((i, e) :: hp) j = heapGet hp j := by
  simp only [heapGet]
  rw [if_neg (fun hc => h hc.symm)]

/-! ### Charge sums -/

theorem sum_map_erase (f : Nat → Nat) (l : List Nat) (i : Nat) (hi : i ∈ l) :
    (l.map f).sum = f i + ((l.erase i).map f).sum := by
  have hperm := List.perm_cons_erase hi
  rw [(hperm.map f).sum_eq]
  simp

/-! ### Unfolding equations for the shard primitives -/

theorem FinishEraseOp_none (s : ShardState) : FinishEraseOp s none = s := rfl

theorem FinishEraseOp_some_eq (s : ShardState) (x : HTEntry) (e : LRUHandle)
    (hje : heapGet s.heap x.id = some e) :
    FinishEraseOp s (some x) =
      UnrefOp { s with lru := s.lru.erase x.id, in_use := s.in_use.erase x.id, heap := heapSet s.heap x.id { e with in_cache := false }, usage := s.usage - e.charge } x.id := by
  simp only [FinishEraseOp, hje, LRU_Remove]

theorem UnrefOp_eq_free (s : ShardState) (i : Nat) (e : LRUHandle)
    (hge : heapGet s.heap i = some e) (h1 : e.refs = 1) :
    UnrefOp s i = { s with heap := heapFree s.heap i, delLog := s.delLog ++ [(i, e.key, e.value)] } := by
  simp [UnrefOp, hge, h1]

theorem UnrefOp_eq_move (s : ShardState) (i : Nat) (e : LRUHandle)
    (hge : heapGet s.heap i = some e) (hne0 : ¬e.refs - 1 = 0)
    (hmov : e.in_cache = true ∧ e.refs - 1 = 1) :
    UnrefOp s i = { s with heap := heapSet s.heap i { e with refs := e.refs - 1 }, lru := s.lru.erase i ++ [i], in_use := s.in_use.erase i } := by
  simp only [UnrefOp, hge, LRU_Remove, if_neg hne0, if_pos hmov]

theorem UnrefOp_eq_dec (s : ShardState) (i : Nat) (e : LRUHandle)
    (hge : heapGet s.heap i = some e) (hne0 : ¬e.refs - 1 = 0)
    (hnm : ¬(e.in_cache = true ∧ e.refs - 1 = 1)) :
    UnrefOp s i = { s with heap := heapSet s.heap i { e with refs := e.refs - 1 } } := by
  simp only [UnrefOp, hge, if_neg hne0, if_neg hnm]

theorem RefOp_eq_move (s : ShardState) (i : Nat) (e : LRUHandle)
    (hge : heapGet s.heap i = some e) (hc : e.refs = 1 ∧ e.in_cache = true) :
    RefOp s i = { s with lru := s.lru.erase i, in_use := s.in_use.erase i ++ [i], heap := heapSet s.heap i { e with refs := e.refs + 1 } } := by
  simp only [RefOp, hge, LRU_Remove, if_pos hc]

theorem RefOp_eq_stay (s : ShardState) (i : Nat) (e : LRUHandle)
    (hge : heapGet s.heap i = some e) (hc : ¬(e.refs = 1 ∧ e.in_cache = true)) :
    RefOp s i = { s with heap := heapSet s.heap i { e with refs := e.refs + 1 } } := by
  simp only [RefOp, hge, if_neg hc]

/-! ### The shard invariant -/

/-- The shard invariant, parameterised by a predicate `P` on identifiers:
every `in_cache` record whose identifier satisfies `P` is reachable from
the hash table, and every table node's identifier satisfies `P`.  The
invariant of §3 of the specification is `Inv s := InvC s (fun _ => True)`;
the weakened form `InvC s (· ≠ j)` describes the state in the middle of
`FinishErase`, after `j` has left the table but before its list unlink. -/
structure InvC (s : ShardState) (P : Nat → Prop) : Prop where
  heap_nodup : (heapIds s.heap).Nodup
  lru_nodup : s.lru.Nodup
  in_use_nodup : s.in_use.Nodup
  lists_disj : ∀ i, i ∈ s.lru → i ∉ s.in_use
  lru_refs : ∀ i ∈ s.lru, ∃ e, heapGet s.heap i = some e ∧ e.refs = 1 ∧
    e.in_cache = true
  in_use_refs : ∀ i ∈ s.in_use, ∃ e, heapGet s.heap i = some e ∧ 2 ≤ e.refs ∧
    e.in_cache = true
  in_cache_mem : ∀ i e, heapGet s.heap i = some e → e.in_cache = true →
    i ∈ s.lru ∨ i ∈ s.in_use
  table_wf : s.table.WF
  table_heap : ∀ x ∈ s.table.entries, ∃ e, heapGet s.heap x.id = some e ∧
    e.in_cache = true ∧ e.key = x.key ∧ e.hash = x.hash
  in_cache_table : ∀ i e, heapGet s.heap i = some e → e.in_cache = true → P i →
    (⟨e.key, e.hash, i⟩ : HTEntry) ∈ s.table.entries
  table_pred : ∀ x ∈ s.table.entries, P x.id
  usage_eq : s.usage = ((s.lru ++ s.in_use).map (chargeOf s.heap)).sum
  refs_acc : ∀ i e, heapGet s.heap i = some e →
    e.refs = s.held.count i + (if e.in_cache then 1 else 0)
  refs_pos : ∀ i e, heapGet s.heap i = some e → 1 ≤ e.refs
  held_heap : ∀ i ∈ s.held, i ∈ heapIds s.heap
  heap_fresh : ∀ i ∈ heapIds s.heap, i < s.nextId
  ins_ids : s.insLog.map Prod.fst = List.range s.nextId
  heap_ins : ∀ i e, heapGet s.heap i = some e → (i, e.key, e.value) ∈ s.insLog
  del_ins : ∀ r ∈ s.delLog, r ∈ s.insLog
  del_nodup : (s.delLog.map Prod.fst).Nodup
  heap_del : ∀ i, i < s.nextId → (i ∈ heapIds s.heap ↔ i ∉ s.delLog.map Prod.fst)

/-- The full shard invariant (§3 invariants (1)–(5) and the ghost-field
bookkeeping). -/
def ShardInv (s : ShardState) : Prop := InvC s (fun _ => True)

theorem InvC.mono {s : ShardState} {P Q : Nat → Prop} (h : InvC s P)
    (hpq : ∀ i, Q i → P i) (hq : ∀ x ∈ s.table.entries, Q x.id) : InvC s Q :=
  { h with
    in_cache_table := fun i e hge hic hqi => h.in_cache_table i e hge hic (hpq i hqi)
    table_pred := hq }

theorem InvC.list_mem_heap {s : ShardState} {P : Nat → Prop} (h : InvC s P)
    {i : Nat} (hi : i ∈ s.lru ∨ i ∈ s.in_use) : i ∈ heapIds s.heap := by
  rcases hi with hi | hi
  · obtain ⟨e, hge, _⟩ := h.lru_refs i hi
    exact heapGet_some_mem_ids hge
  · obtain ⟨e, hge, _⟩ := h.in_use_refs i hi
    exact heapGet_some_mem_ids hge

theorem InvC.lru_count_zero {s : ShardState} {P : Nat → Prop} (h : InvC s P)
    {i : Nat} (hi : i ∈ s.lru) : s.held.count i = 0 := by
  obtain ⟨e, hge, hr, hic⟩ := h.lru_refs i hi
  have := h.refs_acc i e hge
  rw [hr, hic] at this
  simp at this
  omega

theorem InvC.held_not_lru {s : ShardState} {P : Nat → Prop} (h : InvC s P)
    {i : Nat} (hi : i ∈ s.held) : i ∉ s.lru := by
  intro hl
  have := h.lru_count_zero hl
  rw [List.count_eq_zero] at this
  exact this hi

theorem InvC.table_id_inj {s : ShardState} {P : Nat → Prop} (h : InvC s P)
    {x y : HTEntry} (hx : x ∈ s.table.entries) (hy : y ∈ s.table.entries)
    (hid : x.id = y.id) : x = y := by
  obtain ⟨e, hge, _, hek, heh⟩ := h.table_heap x hx
  obtain ⟨e', hge', _, hek', heh'⟩ := h.table_heap y hy
  rw [hid, hge'] at hge
  have he : e = e' := (Option.some.injEq ..).mp hge.symm
  subst he
  exact HandleTable.entries_uniq h.table_wf hx hy (hek.symm.trans hek') (heh.symm.trans heh')

theorem InvC.in_cache_kh_inj {s : ShardState} {P : Nat → Prop} (h : InvC s P)
    (hall : ∀ i, P i)
    {i i' : Nat} {e e' : LRUHandle} (hge : heapGet s.heap i = some e)
    (hge' : heapGet s.heap i' = some e') (hic : e.in_cache = true)
    (hic' : e'.in_cache = true) (hk : e.key = e'.key) (hh : e.hash = e'.hash) :
    i = i' := by
  have h1 := h.in_cache_table i e hge hic (hall i)
  have h2 := h.in_cache_table i' e' hge' hic' (hall i')
  have := HandleTable.entries_uniq h.table_wf h1 h2 (by simpa using hk) (by simpa using hh)
  simpa using congrArg HTEntry.id this

theorem heapSet_heapSet (hp : List (Nat × LRUHandle)) (i : Nat) (a b : LRUHandle) :
    heapSet (heapSet hp i a) i b = heapSet hp i b := by
  induction hp with
  | nil => rfl
  | cons p rest ih =>
    by_cases h : p.1 = i
    · simp [heapSet, h]
    · simp only [heapSet, if_neg h]
      rw [ih]

theorem heapFree_heapSet (hp : List (Nat × LRUHandle)) (i : Nat) (a : LRUHandle) :
    heapFree (heapSet hp i a) i = heapFree hp i := by
  induction hp with
  | nil => rfl
  | cons p rest ih =>
    by_cases h : p.1 = i
    · simp [heapSet, heapFree, h]
    · simp only [heapSet, if_neg h, heapFree]
      rw [ih]

/-- `FinishErase` on an entry that has already left the table restores the
full invariant and has the state effect the source dictates. -/
theorem finishErase_inv {s : ShardState} {x : HTEntry} {e : LRUHandle}
    (hI : InvC s (· ≠ x.id))
    (hje : heapGet s.heap x.id = some e) (hic : e.in_cache = true) :
    ShardInv (FinishEraseOp s (some x))
    ∧ (FinishEraseOp s (some x)).capacity = s.capacity
    ∧ (FinishEraseOp s (some x)).nextId = s.nextId
    ∧ (FinishEraseOp s (some x)).held = s.held
    ∧ (FinishEraseOp s (some x)).insLog = s.insLog
    ∧ (FinishEraseOp s (some x)).table = s.table
    ∧ (FinishEraseOp s (some x)).lru = s.lru.erase x.id
    ∧ (FinishEraseOp s (some x)).in_use = s.in_use.erase x.id
    ∧ s.usage = e.charge + (FinishEraseOp s (some x)).usage
    ∧ (∀ i2, i2 ≠ x.id →
        heapGet (FinishEraseOp s (some x)).heap i2 = heapGet s.heap i2)
    ∧ (e.refs = 1 → heapGet (FinishEraseOp s (some x)).heap x.id = none ∧
        (FinishEraseOp s (some x)).delLog = s.delLog ++ [(x.id, e.key, e.value)])
    ∧ (2 ≤ e.refs →
        heapGet (FinishEraseOp s (some x)).heap x.id =
          some { e with refs := e.refs - 1, in_cache := false } ∧
        (FinishEraseOp s (some x)).delLog = s.delLog) := by
  have hjids : x.id ∈ heapIds s.heap := heapGet_some_mem_ids hje
  have hjl := hI.in_cache_mem x.id e hje hic
  have hjltid : x.id < s.nextId := hI.heap_fresh _ hjids
  have hjdel : x.id ∉ s.delLog.map Prod.fst := (hI.heap_del x.id hjltid).mp hjids
  have hmemapp : x.id ∈ s.lru ++ s.in_use := List.mem_append.mpr hjl
  have hchargej : chargeOf s.heap x.id = e.charge := by simp [chargeOf, hje]
  have hsum : s.usage =
      e.charge + (((s.lru ++ s.in_use).erase x.id).map (chargeOf s.heap)).sum := by
    rw [hI.usage_eq, sum_map_erase (chargeOf s.heap) _ _ hmemapp, hchargej]
  have herase_app : (s.lru ++ s.in_use).erase x.id =
      s.lru.erase x.id ++ s.in_use.erase x.id := by
    rcases hjl with hj | hj
    · rw [List.erase_append_left _ hj,
        List.erase_of_not_mem (hI.lists_disj _ hj)]
    · have hnl : x.id ∉ s.lru := fun hc => hI.lists_disj _ hc hj
      rw [List.erase_append_right _ hnl, List.erase_of_not_mem hnl]
  have hrefs1 := hI.refs_pos x.id e hje
  have hacc := hI.refs_acc x.id e hje
  rw [hic] at hacc
  simp only [if_pos] at hacc
  have heq := FinishEraseOp_some_eq s x e hje
  have hg2 : heapGet (heapSet s.heap x.id { e with in_cache := false }) x.id =
      some { e with in_cache := false } := heapGet_set_self hjids _
  by_cases h1 : e.refs = 1
  -- the cache held the last reference: the deleter runs and the record is freed
  · have hheld0 : s.held.count x.id = 0 := by omega
    have hnotheld : x.id ∉ s.held := by
      rw [← List.count_eq_zero]
      exact hheld0
    have heqF : FinishEraseOp s (some x) =
        { s with lru := s.lru.erase x.id, in_use := s.in_use.erase x.id, heap := heapFree s.heap x.id, usage := s.usage - e.charge, delLog := s.delLog ++ [(x.id, e.key, e.value)] } := by
      rw [heq, UnrefOp_eq_free _ x.id { e with in_cache := false } hg2 h1]
      rw [heapFree_heapSet]
    rw [heqF]
    have hGne : ∀ i2, i2 ≠ x.id →
        heapGet (heapFree s.heap x.id) i2 = heapGet s.heap i2 :=
      fun i2 h2 => heapGet_free_ne s.heap x.id i2 h2
    have hGid : heapGet (heapFree s.heap x.id) x.id = none :=
      heapGet_free_self hI.heap_nodup x.id
    have hIds : heapIds (heapFree s.heap x.id) = (heapIds s.heap).erase x.id :=
      heapFree_ids s.heap x.id
    refine ⟨⟨?_, ?_, ?_, ?_, ?_, ?_, ?_, ?_, ?_, ?_, ?_, ?_, ?_, ?_, ?_, ?_, ?_,
      ?_, ?_, ?_, ?_⟩, rfl, rfl, rfl, rfl, rfl, rfl, rfl, by dsimp only; omega,
      hGne, fun _ => ⟨hGid, rfl⟩, fun hc => absurd h1 (by omega)⟩
    · rw [show heapIds (heapFree s.heap x.id) = (heapIds s.heap).erase x.id from hIds]
      exact hI.heap_nodup.erase _
    · exact hI.lru_nodup.erase _
    · exact hI.in_use_nodup.erase _
    · intro i hi hi2
      exact hI.lists_disj i (List.mem_of_mem_erase hi) (List.mem_of_mem_erase hi2)
    · intro i hi
      obtain ⟨hne, hmem⟩ := (hI.lru_nodup.mem_erase_iff).mp hi
      obtain ⟨ei, hgei, h⟩ := hI.lru_refs i hmem
      exact ⟨ei, by rw [hGne i hne]; exact hgei, h⟩
    · intro i hi
      obtain ⟨hne, hmem⟩ := (hI.in_use_nodup.mem_erase_iff).mp hi
      obtain ⟨ei, hgei, h⟩ := hI.in_use_refs i hmem
      exact ⟨ei, by rw [hGne i hne]; exact hgei, h⟩
    · intro i ei hgei hici
      have hne : i ≠ x.id := by
        rintro rfl
        rw [hGid] at hgei
        exact Option.noConfusion hgei
      rw [hGne i hne] at hgei
      rcases hI.in_cache_mem i ei hgei hici with hm | hm
      · exact Or.inl (List.mem_erase_of_ne hne |>.mpr hm)
      · exact Or.inr (List.mem_erase_of_ne hne |>.mpr hm)
    · exact hI.table_wf
    · intro y hy
      obtain ⟨ey, hgey, h⟩ := hI.table_heap y hy
      exact ⟨ey, by rw [hGne y.id (hI.table_pred y hy)]; exact hgey, h⟩
    · intro i ei hgei hici _
      have hne : i ≠ x.id := by
        rintro rfl
        rw [hGid] at hgei
        exact Option.noConfusion hgei
      rw [hGne i hne] at hgei
      exact hI.in_cache_table i ei hgei hici hne
    · intro y _
      trivial
    · show s.usage - e.charge = _
      have : ∀ i2 ∈ s.lru.erase x.id ++ s.in_use.erase x.id,
          chargeOf (heapFree s.heap x.id) i2 = chargeOf s.heap i2 := by
        intro i2 hi2
        have hne : i2 ≠ x.id := by
          rcases List.mem_append.mp hi2 with hm | hm
          · exact ((hI.lru_nodup.mem_erase_iff).mp hm).1
          · exact ((hI.in_use_nodup.mem_erase_iff).mp hm).1
        simp [chargeOf, hGne i2 hne]
      rw [List.map_congr_left this, ← herase_app]
      omega
    · intro i ei hgei
      have hne : i ≠ x.id := by
        rintro rfl
        rw [hGid] at hgei
        exact Option.noConfusion hgei
      rw [hGne i hne] at hgei
      exact hI.refs_acc i ei hgei
    · intro i ei hgei
      have hne : i ≠ x.id := by
        rintro rfl
        rw [hGid] at hgei
        exact Option.noConfusion hgei
      rw [hGne i hne] at hgei
      exact hI.refs_pos i ei hgei
    · intro i hi
      have hne : i ≠ x.id := fun hc => hnotheld (hc ▸ hi)
      rw [show heapIds (heapFree s.heap x.id) = (heapIds s.heap).erase x.id from hIds]
      exact (List.mem_erase_of_ne hne).mpr (hI.held_heap i hi)
    · intro i hi
      rw [show heapIds (heapFree s.heap x.id) = (heapIds s.heap).erase x.id from hIds] at hi
      exact hI.heap_fresh i (List.mem_of_mem_erase hi)
    · exact hI.ins_ids
    · intro i ei hgei
      have hne : i ≠ x.id := by
        rintro rfl
        rw [hGid] at hgei
        exact Option.noConfusion hgei
      rw [hGne i hne] at hgei
      exact hI.heap_ins i ei hgei
    · intro r hr
      rcases List.mem_append.mp hr with hr | hr
      · exact hI.del_ins r hr
      · rw [List.mem_singleton.mp hr]
        exact hI.heap_ins x.id e hje
    · show ((s.delLog ++ [(x.id, e.key, e.value)]).map Prod.fst).Nodup
      rw [List.map_append]
      rw [List.nodup_append]
      exact ⟨hI.del_nodup, List.nodup_singleton _,
        fun a ha hb => by rw [List.mem_singleton.mp hb] at ha; exact hjdel ha⟩
    · intro i hilt
      show i ∈ heapIds (heapFree s.heap x.id) ↔
        i ∉ (s.delLog ++ [(x.id, e.key, e.value)]).map Prod.fst
      rw [hIds, List.map_append]
      by_cases hne : i = x.id
      · subst hne
        constructor
        · intro hc
          exact absurd hc (fun hc2 => hI.heap_nodup.not_mem_erase hc2)
        · intro hc
          exact absurd (List.mem_append.mpr (Or.inr (by simp))) hc
      · rw [List.mem_erase_of_ne hne]
        rw [hI.heap_del i hilt]
        constructor
        · intro hc hm
          rcases List.mem_append.mp hm with hm | hm
          · exact hc hm
          · simp at hm
            exact hne hm
        · intro hc hm
          exact hc (List.mem_append.mpr (Or.inl hm))
  -- remaining client references: only drop the cache's reference
  · have h2 : 2 ≤ e.refs := by omega
    have hne0 : ¬({ e with in_cache := false } : LRUHandle).refs - 1 = 0 := by
      show ¬e.refs - 1 = 0
      omega
    have hnm : ¬(({ e with in_cache := false } : LRUHandle).in_cache = true ∧
        ({ e with in_cache := false } : LRUHandle).refs - 1 = 1) := by
      rintro ⟨hc, _⟩
      exact Bool.noConfusion hc
    have heqD : FinishEraseOp s (some x) =
        { s with lru := s.lru.erase x.id, in_use := s.in_use.erase x.id, heap := heapSet s.heap x.id { e with refs := e.refs - 1, in_cache := false }, usage := s.usage - e.charge } := by
      rw [heq, UnrefOp_eq_dec _ x.id { e with in_cache := false } hg2 hne0 hnm]
      rw [heapSet_heapSet]
    rw [heqD]
    have hGne : ∀ i2, i2 ≠ x.id →
        heapGet (heapSet s.heap x.id { e with refs := e.refs - 1, in_cache := false }) i2 =
          heapGet s.heap i2 :=
      fun i2 hne => heapGet_set_ne s.heap x.id i2 _ hne
    have hGid : heapGet (heapSet s.heap x.id { e with refs := e.refs - 1, in_cache := false }) x.id =
        some { e with refs := e.refs - 1, in_cache := false } :=
      heapGet_set_self hjids _
    have hIds : heapIds (heapSet s.heap x.id { e with refs := e.refs - 1, in_cache := false }) =
        heapIds s.heap := heapSet_ids s.heap x.id _
    refine ⟨⟨?_, ?_, ?_, ?_, ?_, ?_, ?_, ?_, ?_, ?_, ?_, ?_, ?_, ?_, ?_, ?_, ?_,
      ?_, ?_, ?_, ?_⟩, rfl, rfl, rfl, rfl, rfl, rfl, rfl, by dsimp only; omega,
      hGne, fun hc => absurd hc h1, fun _ => ⟨hGid, rfl⟩⟩
    · rw [show heapIds (heapSet s.heap x.id { e with refs := e.refs - 1, in_cache := false }) = heapIds s.heap from hIds]
      exact hI.heap_nodup
    · exact hI.lru_nodup.erase _
    · exact hI.in_use_nodup.erase _
    · intro i hi hi2
      exact hI.lists_disj i (List.mem_of_mem_erase hi) (List.mem_of_mem_erase hi2)
    · intro i hi
      obtain ⟨hne, hmem⟩ := (hI.lru_nodup.mem_erase_iff).mp hi
      obtain ⟨ei, hgei, h⟩ := hI.lru_refs i hmem
      exact ⟨ei, by rw [hGne i hne]; exact hgei, h⟩
    · intro i hi
      obtain ⟨hne, hmem⟩ := (hI.in_use_nodup.mem_erase_iff).mp hi
      obtain ⟨ei, hgei, h⟩ := hI.in_use_refs i hmem
      exact ⟨ei, by rw [hGne i hne]; exact hgei, h⟩
    · intro i ei hgei hici
      by_cases hne : i = x.id
      · subst hne
        rw [hGid] at hgei
        rw [← (Option.some.injEq ..).mp hgei] at hici
        exact Bool.noConfusion hici
      · rw [hGne i hne] at hgei
        rcases hI.in_cache_mem i ei hgei hici with hm | hm
        · exact Or.inl ((List.mem_erase_of_ne hne).mpr hm)
        · exact Or.inr ((List.mem_erase_of_ne hne).mpr hm)
    · exact hI.table_wf
    · intro y hy
      obtain ⟨ey, hgey, h⟩ := hI.table_heap y hy
      exact ⟨ey, by rw [hGne y.id (hI.table_pred y hy)]; exact hgey, h⟩
    · intro i ei hgei hici _
      by_cases hne : i = x.id
      · subst hne
        rw [hGid] at hgei
        rw [← (Option.some.injEq ..).mp hgei] at hici
        exact Bool.noConfusion hici
      · rw [hGne i hne] at hgei
        exact hI.in_cache_table i ei hgei hici hne
    · intro y _
      trivial
    · show s.usage - e.charge = _
      have : ∀ i2 ∈ s.lru.erase x.id ++ s.in_use.erase x.id,
          chargeOf (heapSet s.heap x.id { e with refs := e.refs - 1, in_cache := false }) i2 =
            chargeOf s.heap i2 := by
        intro i2 hi2
        have hne : i2 ≠ x.id := by
          rcases List.mem_append.mp hi2 with hm | hm
          · exact ((hI.lru_nodup.mem_erase_iff).mp hm).1
          · exact ((hI.in_use_nodup.mem_erase_iff).mp hm).1
        simp [chargeOf, hGne i2 hne]
      rw [List.map_congr_left this, ← herase_app]
      omega
    · intro i ei hgei
      by_cases hne : i = x.id
      · subst hne
        rw [hGid] at hgei
        rw [← (Option.some.injEq ..).mp hgei]
        show e.refs - 1 = s.held.count x.id + _
        simp only [if_neg (by simp : ¬(false = true))]
        omega
      · rw [hGne i hne] at hgei
        exact hI.refs_acc i ei hgei
    · intro i ei hgei
      by_cases hne : i = x.id
      · subst hne
        rw [hGid] at hgei
        rw [← (Option.some.injEq ..).mp hgei]
        show 1 ≤ e.refs - 1
        omega
      · rw [hGne i hne] at hgei
        exact hI.refs_pos i ei hgei
    · intro i hi
      rw [show heapIds (heapSet s.heap x.id { e with refs := e.refs - 1, in_cache := false }) = heapIds s.heap from hIds]
      exact hI.held_heap i hi
    · intro i hi
      rw [show heapIds (heapSet s.heap x.id { e with refs := e.refs - 1, in_cache := false }) = heapIds s.heap from hIds] at hi
      exact hI.heap_fresh i hi
    · exact hI.ins_ids
    · intro i ei hgei
      by_cases hne : i = x.id
      · subst hne
        rw [hGid] at hgei
        rw [← (Option.some.injEq ..).mp hgei]
        exact hI.heap_ins x.id e hje
      · rw [hGne i hne] at hgei
        exact hI.heap_ins i ei hgei
    · exact hI.del_ins
    · exact hI.del_nodup
    · intro i hilt
      show i ∈ heapIds (heapSet s.heap x.id { e with refs := e.refs - 1, in_cache := false }) ↔ _
      rw [hIds]
      exact hI.heap_del i hilt

/-- The (identifier, key, value) triple a deleter invocation for `i` would
log, read off the current heap. -/
def recOf (s : ShardState) (i : Nat) : Nat × Nat × Nat :=
  match heapGet s.heap i with
  | some e => (i, e.key, e.value)
  | none => (i, 0, 0)

/-- After `HandleTable::Remove` returns a node, the state with the updated
table satisfies the invariant weakened at exactly that node's record: the
record is still `in_cache` and on a list, but no longer in the table. -/
theorem remove_some_invx {s : ShardState} (hI : InvC s (fun _ => True))
    {k h : Nat} {x : HTEntry} (hx : (s.table.remove k h).1 = some x) :
    InvC { s with table := (s.table.remove k h).2 } (· ≠ x.id) := by
  obtain ⟨hfst, hwf', hlen', hnone, hsome⟩ := HandleTable.remove_spec hI.table_wf k h
  obtain ⟨hxmem, hxk, hxh, helems, hyent⟩ := hsome x hx
  refine ⟨hI.heap_nodup, hI.lru_nodup, hI.in_use_nodup, hI.lists_disj,
    hI.lru_refs, hI.in_use_refs, hI.in_cache_mem, hwf', ?_, ?_, ?_,
    hI.usage_eq, hI.refs_acc, hI.refs_pos, hI.held_heap, hI.heap_fresh,
    hI.ins_ids, hI.heap_ins, hI.del_ins, hI.del_nodup, hI.heap_del⟩
  · intro y hy
    exact hI.table_heap y ((hyent y).mp hy).1
  · intro i ei hgei hici hne
    refine (hyent _).mpr ⟨hI.in_cache_table i ei hgei hici trivial, ?_⟩
    intro hc
    exact hne (congrArg HTEntry.id hc)
  · intro y hy hc
    have hyt := (hyent y).mp hy
    exact hyt.2 (hI.table_id_inj hyt.1 hxmem hc)

/-- `LRUCache::Erase` preserves the invariant; on a missing key it is a
complete no-op, and afterwards the key is never in the table. -/
theorem erase_preserve {s : ShardState} (hI : InvC s (fun _ => True)) (k h : Nat) :
    InvC (eraseOp s k h) (fun _ => True)
    ∧ (eraseOp s k h).capacity = s.capacity
    ∧ (eraseOp s k h).nextId = s.nextId
    ∧ (eraseOp s k h).held = s.held
    ∧ (eraseOp s k h).insLog = s.insLog
    ∧ (s.table.find k h = none → eraseOp s k h = s)
    ∧ (eraseOp s k h).table.find k h = none := by
  obtain ⟨hfst, hwf', hlen', hnone, hsome⟩ := HandleTable.remove_spec hI.table_wf k h
  cases hx : (s.table.remove k h).1 with
  | none =>
    have hfind : s.table.find k h = none := by rw [← hfst, hx]
    have hs : eraseOp s k h = s := by
      simp only [eraseOp, hx, FinishEraseOp]
      rw [hnone hx]
    rw [hs]
    exact ⟨hI, rfl, rfl, rfl, rfl, fun _ => rfl, hfind⟩
  | some x =>
    have hfind : s.table.find k h = some x := by rw [← hfst, hx]
    obtain ⟨hxmem, hxk, hxh, helems, hyent⟩ := hsome x hx
    obtain ⟨e, hge, hic, hek, heh⟩ := hI.table_heap x hxmem
    have hIX := remove_some_invx hI hx
    have hs : eraseOp s k h =
        FinishEraseOp { s with table := (s.table.remove k h).2 } (some x) := by
      simp only [eraseOp, hx]
    obtain ⟨hInv', hcap, hnid, hheld, hins, htab, hlru, hinuse, husage, hGne,
      hfree, hdec⟩ := finishErase_inv hIX hge hic
    rw [hs]
    have hfind2 : (FinishEraseOp { s with table := (s.table.remove k h).2 } (some x)).table.find k h = none := by
      rw [htab]
      show ((s.table.remove k h).2).find k h = none
      cases hf2 : ((s.table.remove k h).2).find k h with
      | none => rfl
      | some y =>
        obtain ⟨hymem, hyh, hyk⟩ := HandleTable.find_some_spec hf2
        have hyt := (hyent y).mp hymem
        have : y = x := HandleTable.entries_uniq hI.table_wf hyt.1 hxmem
          (hyk.trans hxk.symm) (hyh.trans hxh.symm)
        exact absurd this hyt.2
    refine ⟨hInv', hcap, hnid, hheld, hins, ?_, hfind2⟩
    intro hc
    rw [hc] at hfind
    exact Option.noConfusion hfind

theorem evictLoop_le {s : ShardState} (hle : s.usage ≤ s.capacity) (f : Nat) :
    evictLoop f s = s := by
  cases f with
  | zero => rfl
  | succ f => simp only [evictLoop, if_neg (by omega : ¬s.capacity < s.usage)]

/-- The eviction loop of `Insert` preserves the invariant, touches only
entries of the `lru_` list, and — given at least `lru_.length` fuel —
stops only when the budget is met or nothing evictable remains. -/
theorem evictLoop_inv : ∀ (f : Nat) (s : ShardState),
    InvC s (fun _ => True) →
    InvC (evictLoop f s) (fun _ => True)
    ∧ (evictLoop f s).capacity = s.capacity
    ∧ (evictLoop f s).nextId = s.nextId
    ∧ (evictLoop f s).held = s.held
    ∧ (evictLoop f s).insLog = s.insLog
    ∧ (evictLoop f s).in_use = s.in_use
    ∧ (∀ j, j ∉ s.lru → heapGet (evictLoop f s).heap j = heapGet s.heap j)
    ∧ (∀ x : HTEntry, x.id ∉ s.lru →
        (x ∈ (evictLoop f s).table.entries ↔ x ∈ s.table.entries))
    ∧ (s.lru.length ≤ f →
        (evictLoop f s).usage ≤ (evictLoop f s).capacity ∨
          (evictLoop f s).lru = []) := by
  intro f
  induction f with
  | zero =>
    intro s hI
    refine ⟨hI, rfl, rfl, rfl, rfl, rfl, fun _ _ => rfl, fun _ _ => Iff.rfl, ?_⟩
    intro hlen
    right
    show s.lru = []
    exact List.length_eq_zero.mp (by omega)
  | succ f ih =>
    intro s hI
    by_cases hcap : s.capacity < s.usage
    · cases hlru : s.lru with
      | nil =>
        have hs : evictLoop (f + 1) s = s := by
          simp only [evictLoop, if_pos hcap, hlru]
        rw [hs]
        exact ⟨hI, rfl, rfl, rfl, rfl, rfl, fun _ _ => rfl, fun _ _ => Iff.rfl,
          fun _ => Or.inr hlru⟩
      | cons old rest =>
        have hold_lru : old ∈ s.lru := by rw [hlru]; exact List.mem_cons_self _ _
        obtain ⟨e, hge, hrefs1, hic⟩ := hI.lru_refs old hold_lru
        have hin_tab := hI.in_cache_table old e hge hic trivial
        have hfind : s.table.find e.key e.hash = some ⟨e.key, e.hash, old⟩ :=
          HandleTable.find_of_mem hI.table_wf hin_tab
        obtain ⟨hfst, hwf', hlen', hnone, hsome⟩ :=
          HandleTable.remove_spec hI.table_wf e.key e.hash
        have hx : (s.table.remove e.key e.hash).1 = some ⟨e.key, e.hash, old⟩ := by
          rw [hfst, hfind]
        obtain ⟨hxmem, hxk, hxh, helems, hyent⟩ := hsome _ hx
        have hIX := remove_some_invx hI hx
        have hstep : evictLoop (f + 1) s =
            evictLoop f (FinishEraseOp { s with table := (s.table.remove e.key e.hash).2 } (s.table.remove e.key e.hash).1) := by
          simp only [evictLoop, if_pos hcap, hlru, hge]
        obtain ⟨hInv', hcap', hnid', hheld', hins', htab', hlru', hinuse',
          husage', hGne', hfree', hdec'⟩ := finishErase_inv hIX hge hic
        rw [hx] at hstep
        set s1 := FinishEraseOp { s with table := (s.table.remove e.key e.hash).2 }
          (some (⟨e.key, e.hash, old⟩ : HTEntry)) with hs1
        have hlru1 : s1.lru = rest := by
          rw [hlru']
          show s.lru.erase old = rest
          rw [hlru]
          exact List.erase_cons_head ..
        have hinuse1 : s1.in_use = s.in_use := by
          rw [hinuse']
          exact List.erase_of_not_mem (hI.lists_disj old hold_lru)
        obtain ⟨ihInv, ihcap, ihnid, ihheld, ihins, ihinuse, ihheap, ihtab,
          ihlen⟩ := ih s1 hInv'
        rw [hstep]
        have hnodup := hI.lru_nodup
        rw [hlru] at hnodup
        have hrest_sub : ∀ j, j ∉ s.lru → j ∉ s1.lru := by
          intro j hj
          rw [hlru1]
          intro hc
          exact hj (by rw [hlru]; exact List.mem_cons_of_mem _ hc)
        refine ⟨ihInv, ihcap.trans hcap', ihnid.trans hnid',
          ihheld.trans hheld', ihins.trans hins', ihinuse.trans hinuse1,
          ?_, ?_, ?_⟩
        · intro j hj
          have hjne : j ≠ old := fun hc => hj (by rw [hc]; exact List.mem_cons_self _ _)
          have hj' : j ∉ s.lru := by rw [hlru]; exact hj
          rw [ihheap j (hrest_sub j hj'), hGne' j hjne]
        · intro x hxid
          have hne : x.id ≠ old := fun hc => hxid (by rw [hc]; exact List.mem_cons_self _ _)
          have hx2 : x.id ∉ s.lru := by rw [hlru]; exact hxid
          rw [ihtab x (hrest_sub x.id hx2)]
          have : s1.table = (s.table.remove e.key e.hash).2 := htab'
          rw [this]
          constructor
          · intro hm
            exact ((hyent x).mp hm).1
          · intro hm
            refine (hyent x).mpr ⟨hm, ?_⟩
            intro hc
            exact hne (congrArg HTEntry.id hc)
        · intro hlen
          refine ihlen ?_
          rw [hlru1]
          simp only [List.length_cons] at hlen
          omega
    · have hs : evictLoop (f + 1) s = s := by
        simp only [evictLoop, if_neg hcap]
      rw [hs]
      exact ⟨hI, rfl, rfl, rfl, rfl, rfl, fun _ _ => rfl, fun _ _ => Iff.rfl,
        fun _ => Or.inl (by omega)⟩

/-- The loop of `Prune` preserves the invariant, empties `lru_` (with
enough fuel), runs the deleter of every `lru_` entry oldest-first, and
touches nothing else. -/
theorem pruneLoop_inv : ∀ (f : Nat) (s : ShardState),
    InvC s (fun _ => True) →
    InvC (pruneLoop f s) (fun _ => True)
    ∧ (pruneLoop f s).capacity = s.capacity
    ∧ (pruneLoop f s).nextId = s.nextId
    ∧ (pruneLoop f s).held = s.held
    ∧ (pruneLoop f s).insLog = s.insLog
    ∧ (pruneLoop f s).in_use = s.in_use
    ∧ (∀ j, j ∉ s.lru → heapGet (pruneLoop f s).heap j = heapGet s.heap j)
    ∧ (∀ x : HTEntry, x.id ∉ s.lru →
        (x ∈ (pruneLoop f s).table.entries ↔ x ∈ s.table.entries))
    ∧ (s.lru.length ≤ f → (pruneLoop f s).lru = [] ∧
        (pruneLoop f s).delLog = s.delLog ++ s.lru.map (recOf s)) := by
  intro f
  induction f with
  | zero =>
    intro s hI
    refine ⟨hI, rfl, rfl, rfl, rfl, rfl, fun _ _ => rfl, fun _ _ => Iff.rfl, ?_⟩
    intro hlen
    have hnil : s.lru = [] := List.length_eq_zero.mp (by omega)
    constructor
    · exact hnil
    · rw [hnil]
      simp [pruneLoop]
  | succ f ih =>
    intro s hI
    cases hlru : s.lru with
    | nil =>
      have hs : pruneLoop (f + 1) s = s := by
        simp only [pruneLoop, hlru]
      rw [hs]
      refine ⟨hI, rfl, rfl, rfl, rfl, rfl, fun _ _ => rfl, fun _ _ => Iff.rfl, ?_⟩
      intro _
      exact ⟨hlru, by simp⟩
    | cons old rest =>
      have hold_lru : old ∈ s.lru := by rw [hlru]; exact List.mem_cons_self _ _
      obtain ⟨e, hge, hrefs1, hic⟩ := hI.lru_refs old hold_lru
      have hin_tab := hI.in_cache_table old e hge hic trivial
      have hfind : s.table.find e.key e.hash = some ⟨e.key, e.hash, old⟩ :=
        HandleTable.find_of_mem hI.table_wf hin_tab
      obtain ⟨hfst, hwf', hlen', hnone, hsome⟩ :=
        HandleTable.remove_spec hI.table_wf e.key e.hash
      have hx : (s.table.remove e.key e.hash).1 = some ⟨e.key, e.hash, old⟩ := by
        rw [hfst, hfind]
      obtain ⟨hxmem, hxk, hxh, helems, hyent⟩ := hsome _ hx
      have hIX := remove_some_invx hI hx
      have hstep : pruneLoop (f + 1) s =
          pruneLoop f (FinishEraseOp { s with table := (s.table.remove e.key e.hash).2 } (s.table.remove e.key e.hash).1) := by
        simp only [pruneLoop, hlru, hge]
      obtain ⟨hInv', hcap', hnid', hheld', hins', htab', hlru', hinuse',
        husage', hGne', hfree', hdec'⟩ := finishErase_inv hIX hge hic
      rw [hx] at hstep
      set s1 := FinishEraseOp { s with table := (s.table.remove e.key e.hash).2 }
        (some (⟨e.key, e.hash, old⟩ : HTEntry)) with hs1
      obtain ⟨hGid1, hdel1⟩ := hfree' hrefs1
      have hlru1 : s1.lru = rest := by
        rw [hlru']
        show s.lru.erase old = rest
        rw [hlru]
        exact List.erase_cons_head ..
      have hinuse1 : s1.in_use = s.in_use := by
        rw [hinuse']
        exact List.erase_of_not_mem (hI.lists_disj old hold_lru)
      obtain ⟨ihInv, ihcap, ihnid, ihheld, ihins, ihinuse, ihheap, ihtab,
        ihlen⟩ := ih s1 hInv'
      rw [hstep]
      have hnodup := hI.lru_nodup
      rw [hlru] at hnodup
      have hrest_sub : ∀ j, j ∉ s.lru → j ∉ s1.lru := by
        intro j hj
        rw [hlru1]
        intro hc
        exact hj (by rw [hlru]; exact List.mem_cons_of_mem _ hc)
      refine ⟨ihInv, ihcap.trans hcap', ihnid.trans hnid',
        ihheld.trans hheld', ihins.trans hins', ihinuse.trans hinuse1,
        ?_, ?_, ?_⟩
      · intro j hj
        have hjne : j ≠ old := fun hc => hj (by rw [hc]; exact List.mem_cons_self _ _)
        have hj2 : j ∉ s.lru := by rw [hlru]; exact hj
        rw [ihheap j (hrest_sub j hj2), hGne' j hjne]
      · intro x hxid
        have hne : x.id ≠ old := fun hc => hxid (by rw [hc]; exact List.mem_cons_self _ _)
        have hx2 : x.id ∉ s.lru := by rw [hlru]; exact hxid
        rw [ihtab x (hrest_sub x.id hx2)]
        have htabeq : s1.table = (s.table.remove e.key e.hash).2 := htab'
        rw [htabeq]
        constructor
        · intro hm
          exact ((hyent x).mp hm).1
        · intro hm
          refine (hyent x).mpr ⟨hm, ?_⟩
          intro hc
          exact hne (congrArg HTEntry.id hc)
      · intro hlen
        simp only [List.length_cons] at hlen
        obtain ⟨ihnil, ihdel⟩ := ihlen (by rw [hlru1]; omega)
        refine ⟨ihnil, ?_⟩
        rw [ihdel, hdel1, hlru1]
        have hrec : rest.map (recOf s1) = rest.map (recOf s) := by
          apply List.map_congr_left
          intro j hj
          have hjne : j ≠ old := by
            rintro rfl
            exact (List.pairwise_cons.mp hnodup).1 j hj rfl
          simp [recOf, hGne' j hjne]
        rw [hrec]
        have hrecold : recOf s old = (old, e.key, e.value) := by
          simp [recOf, hge]
        rw [List.map_cons, hrecold]
        simp

/-- `LRUCache::Release` of a handle the client holds preserves the
invariant and has exactly the effect `Unref` dictates. -/
theorem release_preserve {s : ShardState} (hI : InvC s (fun _ => True)) {i : Nat}
    (hheld : i ∈ s.held) :
    InvC (releaseOp s i) (fun _ => True)
    ∧ (releaseOp s i).capacity = s.capacity
    ∧ (releaseOp s i).nextId = s.nextId
    ∧ (releaseOp s i).usage = s.usage
    ∧ (releaseOp s i).table = s.table
    ∧ (∀ e, heapGet s.heap i = some e →
        (e.refs = 1 → heapGet (releaseOp s i).heap i = none ∧
            (releaseOp s i).delLog = s.delLog ++ [(i, e.key, e.value)] ∧
            (releaseOp s i).lru = s.lru ∧ (releaseOp s i).in_use = s.in_use)
        ∧ (2 ≤ e.refs →
            heapGet (releaseOp s i).heap i = some { e with refs := e.refs - 1 } ∧
            (releaseOp s i).delLog = s.delLog ∧
            ((e.in_cache = true ∧ e.refs = 2) →
              i ∈ s.in_use ∧ (releaseOp s i).lru = s.lru ++ [i] ∧
              (releaseOp s i).in_use = s.in_use.erase i)
            ∧ (¬(e.in_cache = true ∧ e.refs = 2) →
              (releaseOp s i).lru = s.lru ∧
              (releaseOp s i).in_use = s.in_use))) := by
  have hids : i ∈ heapIds s.heap := hI.held_heap i hheld
  obtain ⟨e, hge⟩ : ∃ e, heapGet s.heap i = some e := by
    cases hg : heapGet s.heap i with
    | none => exact absurd ((heapGet_none_iff ..).mp hg) (by simp [hids])
    | some e => exact ⟨e, rfl⟩
  have hnl : i ∉ s.lru := hI.held_not_lru hheld
  have hcount1 : 1 ≤ s.held.count i := List.count_pos_iff_mem.mpr hheld
  have hacc := hI.refs_acc i e hge
  have hrpos := hI.refs_pos i e hge
  have hfresh := hI.heap_fresh i hids
  have hdelid : i ∉ s.delLog.map Prod.fst := (hI.heap_del i hfresh).mp hids
  have hcount_ne : ∀ j, j ≠ i → (s.held.erase i).count j = s.held.count j :=
    fun j hj => List.count_erase_of_ne hj s.held
  have hcount_i : (s.held.erase i).count i = s.held.count i - 1 :=
    List.count_erase_self i s.held
  have hheld_sub : ∀ j ∈ s.held.erase i, j ∈ s.held :=
    fun j hj => List.mem_of_mem_erase hj
  -- releaseOp is Unref on the state with the handle given back
  have hrel : releaseOp s i = UnrefOp { s with held := s.held.erase i } i := rfl
  have hge0 : heapGet ({ s with held := s.held.erase i } : ShardState).heap i = some e := hge
  by_cases h1 : e.refs = 1
  -- the last reference: deleter runs, record freed
  · have hic : e.in_cache = false := by
      cases hc : e.in_cache with
      | false => rfl
      | true => rw [hc] at hacc; simp at hacc; omega
    rw [hic] at hacc
    simp only [if_neg (by simp : ¬(false = true))] at hacc
    have hcnt : s.held.count i = 1 := by omega
    have hni : i ∉ s.in_use := by
      intro hc
      obtain ⟨e', hge', hr', _⟩ := hI.in_use_refs i hc
      rw [hge] at hge'
      rw [← (Option.some.injEq ..).mp hge'] at hr'
      omega
    have heqF : releaseOp s i =
        { s with held := s.held.erase i, heap := heapFree s.heap i, delLog := s.delLog ++ [(i, e.key, e.value)] } := by
      rw [hrel, UnrefOp_eq_free _ i e hge0 h1]
    rw [heqF]
    have hGne : ∀ j, j ≠ i → heapGet (heapFree s.heap i) j = heapGet s.heap j :=
      fun j hj => heapGet_free_ne s.heap i j hj
    have hGid : heapGet (heapFree s.heap i) i = none :=
      heapGet_free_self hI.heap_nodup i
    have hIds : heapIds (heapFree s.heap i) = (heapIds s.heap).erase i :=
      heapFree_ids s.heap i
    have hInotin : i ∉ s.held.erase i := by
      intro hc
      have := List.count_pos_iff_mem.mpr hc
      omega
    refine ⟨⟨?_, hI.lru_nodup, hI.in_use_nodup, hI.lists_disj, ?_, ?_, ?_,
      hI.table_wf, ?_, ?_, fun _ _ => trivial, ?_, ?_, ?_, ?_, ?_, hI.ins_ids,
      ?_, ?_, ?_, ?_⟩, rfl, rfl, rfl, rfl, ?_⟩
    · rw [show heapIds (heapFree s.heap i) = (heapIds s.heap).erase i from hIds]
      exact hI.heap_nodup.erase _
    · intro j hj
      obtain ⟨ej, hgej, hj2⟩ := hI.lru_refs j hj
      exact ⟨ej, by rw [hGne j (fun hc => hnl (hc ▸ hj))]; exact hgej, hj2⟩
    · intro j hj
      obtain ⟨ej, hgej, hj2⟩ := hI.in_use_refs j hj
      exact ⟨ej, by rw [hGne j (fun hc => hni (hc ▸ hj))]; exact hgej, hj2⟩
    · intro j ej hgej hicj
      have hne : j ≠ i := by
        rintro rfl
        rw [hGid] at hgej
        exact Option.noConfusion hgej
      rw [hGne j hne] at hgej
      exact hI.in_cache_mem j ej hgej hicj
    · intro y hy
      obtain ⟨ey, hgey, hy2⟩ := hI.table_heap y hy
      have hne : y.id ≠ i := by
        rintro rfl
        rw [hge] at hgey
        rw [← (Option.some.injEq ..).mp hgey] at hy2
        rw [hic] at hy2
        exact Bool.noConfusion hy2.1
      exact ⟨ey, by rw [hGne y.id hne]; exact hgey, hy2⟩
    · intro j ej hgej hicj _
      have hne : j ≠ i := by
        rintro rfl
        rw [hGid] at hgej
        exact Option.noConfusion hgej
      rw [hGne j hne] at hgej
      exact hI.in_cache_table j ej hgej hicj trivial
    · rw [hI.usage_eq]
      show _ = ((s.lru ++ s.in_use).map (chargeOf (heapFree s.heap i))).sum
      congr 1
      apply List.map_congr_left
      intro j hj
      have hne : j ≠ i := by
        rintro rfl
        rcases List.mem_append.mp hj with hm | hm
        · exact hnl hm
        · exact hni hm
      simp [chargeOf, hGne j hne]
    · intro j ej hgej
      have hne : j ≠ i := by
        rintro rfl
        rw [hGid] at hgej
        exact Option.noConfusion hgej
      rw [hGne j hne] at hgej
      rw [hI.refs_acc j ej hgej, hcount_ne j hne]
    · intro j ej hgej
      have hne : j ≠ i := by
        rintro rfl
        rw [hGid] at hgej
        exact Option.noConfusion hgej
      rw [hGne j hne] at hgej
      exact hI.refs_pos j ej hgej
    · intro j hj
      have hne : j ≠ i := fun hc => hInotin (hc ▸ hj)
      rw [show heapIds (heapFree s.heap i) = (heapIds s.heap).erase i from hIds]
      exact (List.mem_erase_of_ne hne).mpr (hI.held_heap j (hheld_sub j hj))
    · intro j hj
      rw [show heapIds (heapFree s.heap i) = (heapIds s.heap).erase i from hIds] at hj
      exact hI.heap_fresh j (List.mem_of_mem_erase hj)
    · intro j ej hgej
      have hne : j ≠ i := by
        rintro rfl
        rw [hGid] at hgej
        exact Option.noConfusion hgej
      rw [hGne j hne] at hgej
      exact hI.heap_ins j ej hgej
    · intro r hr
      rcases List.mem_append.mp hr with hr | hr
      · exact hI.del_ins r hr
      · rw [List.mem_singleton.mp hr]
        exact hI.heap_ins i e hge
    · rw [List.map_append, List.nodup_append]
      exact ⟨hI.del_nodup, List.nodup_singleton _,
        fun a ha hb => by rw [List.mem_singleton.mp hb] at ha; exact hdelid ha⟩
    · intro j hjlt
      show j ∈ heapIds (heapFree s.heap i) ↔
        j ∉ (s.delLog ++ [(i, e.key, e.value)]).map Prod.fst
      rw [hIds, List.map_append]
      by_cases hne : j = i
      · subst hne
        constructor
        · intro hc
          exact absurd hc (fun hc2 => hI.heap_nodup.not_mem_erase hc2)
        · intro hc
          exact absurd (List.mem_append.mpr (Or.inr (by simp))) hc
      · rw [List.mem_erase_of_ne hne, hI.heap_del j hjlt]
        constructor
        · intro hc hm
          rcases List.mem_append.mp hm with hm | hm
          · exact hc hm
          · simp at hm
            exact hne hm
        · intro hc hm
          exact hc (List.mem_append.mpr (Or.inl hm))
    · intro e' hge'
      rw [hge] at hge'
      rw [← (Option.some.injEq ..).mp hge']
      exact ⟨fun _ => ⟨hGid, rfl, rfl, rfl⟩, fun hc => absurd h1 (by omega)⟩
  -- other references remain
  · have h2 : 2 ≤ e.refs := by omega
    have hne0 : ¬e.refs - 1 = 0 := by omega
    by_cases hmv : e.in_cache = true ∧ e.refs = 2
    -- the cache's reference becomes the only one: move to the lru_ list
    · have hiu : i ∈ s.in_use := by
        rcases hI.in_cache_mem i e hge hmv.1 with hm | hm
        · exact absurd hm hnl
        · exact hm
      have hmov : e.in_cache = true ∧ e.refs - 1 = 1 := ⟨hmv.1, by omega⟩
      have heqM : releaseOp s i =
          { s with held := s.held.erase i, heap := heapSet s.heap i { e with refs := e.refs - 1 }, lru := s.lru ++ [i], in_use := s.in_use.erase i } := by
        rw [hrel, UnrefOp_eq_move _ i e hge0 hne0 hmov]
        rw [List.erase_of_not_mem hnl]
      rw [heqM]
      have hGne : ∀ j, j ≠ i →
          heapGet (heapSet s.heap i { e with refs := e.refs - 1 }) j =
            heapGet s.heap j :=
        fun j hj => heapGet_set_ne s.heap i j _ hj
      have hGid : heapGet (heapSet s.heap i { e with refs := e.refs - 1 }) i =
          some { e with refs := e.refs - 1 } := heapGet_set_self hids _
      have hIds : heapIds (heapSet s.heap i { e with refs := e.refs - 1 }) =
          heapIds s.heap := heapSet_ids ..
      have hcnt : s.held.count i = 1 := by
        rw [hmv.1] at hacc
        simp at hacc
        omega
      refine ⟨⟨by rw [hIds]; exact hI.heap_nodup, ?_, hI.in_use_nodup.erase _,
        ?_, ?_, ?_, ?_, hI.table_wf, ?_, ?_, fun _ _ => trivial, ?_, ?_, ?_,
        ?_, ?_, hI.ins_ids, ?_, hI.del_ins, hI.del_nodup, ?_⟩,
        rfl, rfl, rfl, rfl, ?_⟩
      · rw [List.nodup_append]
        exact ⟨hI.lru_nodup, List.nodup_singleton _,
          fun a ha hb => by rw [List.mem_singleton.mp hb] at ha; exact hnl ha⟩
      · intro j hj
        rcases List.mem_append.mp hj with hm | hm
        · intro hc
          exact hI.lists_disj j hm (List.mem_of_mem_erase hc)
        · rw [List.mem_singleton.mp hm]
          exact hI.in_use_nodup.not_mem_erase
      · intro j hj
        rcases List.mem_append.mp hj with hm | hm
        · obtain ⟨ej, hgej, hj2⟩ := hI.lru_refs j hm
          exact ⟨ej, by rw [hGne j (fun hc => hnl (hc ▸ hm))]; exact hgej, hj2⟩
        · rw [List.mem_singleton.mp hm]
          refine ⟨{ e with refs := e.refs - 1 }, hGid, ?_, hmv.1⟩
          show e.refs - 1 = 1
          have hmr2 : e.refs = 2 := hmv.2
          omega
      · intro j hj
        obtain ⟨hne, hm⟩ := hI.in_use_nodup.mem_erase_iff.mp hj
        obtain ⟨ej, hgej, hj2⟩ := hI.in_use_refs j hm
        exact ⟨ej, by rw [hGne j hne]; exact hgej, hj2⟩
      · intro j ej hgej hicj
        by_cases hne : j = i
        · subst hne
          exact Or.inl (List.mem_append.mpr (Or.inr (by simp)))
        · rw [hGne j hne] at hgej
          rcases hI.in_cache_mem j ej hgej hicj with hm | hm
          · exact Or.inl (List.mem_append.mpr (Or.inl hm))
          · exact Or.inr ((List.mem_erase_of_ne hne).mpr hm)
      · intro y hy
        obtain ⟨ey, hgey, hy2⟩ := hI.table_heap y hy
        by_cases hne : y.id = i
        · rw [hne] at hgey ⊢
          rw [hge] at hgey
          have he : ey = e := (Option.some.injEq ..).mp hgey.symm
          rw [he] at hy2
          exact ⟨{ e with refs := e.refs - 1 }, hGid, hy2⟩
        · exact ⟨ey, by rw [hGne y.id hne]; exact hgey, hy2⟩
      · intro j ej hgej hicj _
        by_cases hne : j = i
        · subst hne
          rw [hGid] at hgej
          rw [← (Option.some.injEq ..).mp hgej] at hicj ⊢
          exact hI.in_cache_table j e hge hicj trivial
        · rw [hGne j hne] at hgej
          exact hI.in_cache_table j ej hgej hicj trivial
      · show s.usage = _
        rw [hI.usage_eq]
        have hperm : ((s.lru ++ [i]) ++ s.in_use.erase i).Perm
            (s.lru ++ s.in_use) := by
          calc (s.lru ++ [i]) ++ s.in_use.erase i
              = s.lru ++ ([i] ++ s.in_use.erase i) := by rw [List.append_assoc]
            _ = s.lru ++ (i :: s.in_use.erase i) := rfl
          exact List.Perm.append_left s.lru (List.perm_cons_erase hiu).symm
        rw [← (hperm.map (chargeOf s.heap)).sum_eq]
        congr 1
        apply List.map_congr_left
        intro j hj
        by_cases hne : j = i
        · subst hne
          simp [chargeOf, hGid, hge]
        · simp [chargeOf, hGne j hne]
      · intro j ej hgej
        by_cases hne : j = i
        · subst hne
          rw [hGid] at hgej
          rw [← (Option.some.injEq ..).mp hgej]
          show e.refs - 1 = _ + _
          rw [hmv.1]
          simp only [if_pos]
          rw [hcount_i]
          omega
        · rw [hGne j hne] at hgej
          rw [hI.refs_acc j ej hgej, hcount_ne j hne]
      · intro j ej hgej
        by_cases hne : j = i
        · subst hne
          rw [hGid] at hgej
          rw [← (Option.some.injEq ..).mp hgej]
          show 1 ≤ e.refs - 1
          omega
        · rw [hGne j hne] at hgej
          exact hI.refs_pos j ej hgej
      · intro j hj
        rw [hIds]
        exact hI.held_heap j (hheld_sub j hj)
      · intro j hj
        rw [hIds] at hj
        exact hI.heap_fresh j hj
      · intro j ej hgej
        by_cases hne : j = i
        · subst hne
          rw [hGid] at hgej
          rw [← (Option.some.injEq ..).mp hgej]
          exact hI.heap_ins j e hge
        · rw [hGne j hne] at hgej
          exact hI.heap_ins j ej hgej
      · intro j hjlt
        show j ∈ heapIds (heapSet s.heap i { e with refs := e.refs - 1 }) ↔ _
        rw [hIds]
        exact hI.heap_del j hjlt
      · intro e' hge'
        rw [hge] at hge'
        rw [← (Option.some.injEq ..).mp hge']
        refine ⟨fun hc => absurd hc h1, fun _ => ⟨hGid, rfl, ?_, ?_⟩⟩
        · intro _
          exact ⟨hiu, rfl, rfl⟩
        · intro hc
          exact absurd hmv hc
    -- either not cached any more, or still multiply referenced
    · have hnm : ¬(e.in_cache = true ∧ e.refs - 1 = 1) := by
        rintro ⟨hc1, hc2⟩
        exact hmv ⟨hc1, by omega⟩
      have heqD : releaseOp s i =
          { s with held := s.held.erase i, heap := heapSet s.heap i { e with refs := e.refs - 1 } } := by
        rw [hrel, UnrefOp_eq_dec _ i e hge0 hne0 hnm]
      rw [heqD]
      have hGne : ∀ j, j ≠ i →
          heapGet (heapSet s.heap i { e with refs := e.refs - 1 }) j =
            heapGet s.heap j :=
        fun j hj => heapGet_set_ne s.heap i j _ hj
      have hGid : heapGet (heapSet s.heap i { e with refs := e.refs - 1 }) i =
          some { e with refs := e.refs - 1 } := heapGet_set_self hids _
      have hIds : heapIds (heapSet s.heap i { e with refs := e.refs - 1 }) =
          heapIds s.heap := heapSet_ids ..
      refine ⟨⟨by rw [hIds]; exact hI.heap_nodup, hI.lru_nodup,
        hI.in_use_nodup, hI.lists_disj, ?_, ?_, ?_, hI.table_wf, ?_, ?_,
        fun _ _ => trivial, ?_, ?_, ?_, ?_, ?_, hI.ins_ids, ?_, hI.del_ins,
        hI.del_nodup, ?_⟩, rfl, rfl, rfl, rfl, ?_⟩
      · intro j hj
        obtain ⟨ej, hgej, hj2⟩ := hI.lru_refs j hj
        exact ⟨ej, by rw [hGne j (fun hc => hnl (hc ▸ hj))]; exact hgej, hj2⟩
      · intro j hj
        by_cases hne : j = i
        · subst hne
          refine ⟨{ e with refs := e.refs - 1 }, hGid, ?_, ?_⟩
          · show 2 ≤ e.refs - 1
            obtain ⟨ej, hgej, hj2, hj3⟩ := hI.in_use_refs j hj
            rw [hge] at hgej
            have := (Option.some.injEq ..).mp hgej
            subst this
            rcases Nat.lt_or_ge e.refs 3 with hlt | hge3
            · exact absurd ⟨hj3, by omega⟩ hmv
            · omega
          · obtain ⟨ej, hgej, _, hj3⟩ := hI.in_use_refs j hj
            rw [hge] at hgej
            have := (Option.some.injEq ..).mp hgej
            subst this
            exact hj3
        · obtain ⟨ej, hgej, hj2⟩ := hI.in_use_refs j hj
          exact ⟨ej, by rw [hGne j hne]; exact hgej, hj2⟩
      · intro j ej hgej hicj
        by_cases hne : j = i
        · subst hne
          rw [hGid] at hgej
          rw [← (Option.some.injEq ..).mp hgej] at hicj
          exact hI.in_cache_mem j e hge hicj
        · rw [hGne j hne] at hgej
          exact hI.in_cache_mem j ej hgej hicj
      · intro y hy
        obtain ⟨ey, hgey, hy2⟩ := hI.table_heap y hy
        by_cases hne : y.id = i
        · rw [hne] at hgey ⊢
          rw [hge] at hgey
          have he : ey = e := (Option.some.injEq ..).mp hgey.symm
          rw [he] at hy2
          exact ⟨{ e with refs := e.refs - 1 }, hGid, hy2⟩
        · exact ⟨ey, by rw [hGne y.id hne]; exact hgey, hy2⟩
      · intro j ej hgej hicj _
        by_cases hne : j = i
        · subst hne
          rw [hGid] at hgej
          rw [← (Option.some.injEq ..).mp hgej] at hicj ⊢
          exact hI.in_cache_table j e hge hicj trivial
        · rw [hGne j hne] at hgej
          exact hI.in_cache_table j ej hgej hicj trivial
      · show s.usage = _
        rw [hI.usage_eq]
        congr 1
        apply List.map_congr_left
        intro j hj
        by_cases hne : j = i
        · subst hne
          simp [chargeOf, hGid, hge]
        · simp [chargeOf, hGne j hne]
      · intro j ej hgej
        by_cases hne : j = i
        · subst hne
          rw [hGid] at hgej
          rw [← (Option.some.injEq ..).mp hgej]
          show e.refs - 1 = _ + _
          rw [hI.refs_acc j e hge] at hrpos ⊢
          rw [hcount_i]
          cases hc : e.in_cache with
          | false =>
            rw [hc] at hacc
            simp only [if_neg (by simp : ¬(false = true))] at hacc ⊢
            omega
          | true =>
            rw [hc] at hacc
            simp only [if_pos] at hacc ⊢
            omega
        · rw [hGne j hne] at hgej
          rw [hI.refs_acc j ej hgej, hcount_ne j hne]
      · intro j ej hgej
        by_cases hne : j = i
        · subst hne
          rw [hGid] at hgej
          rw [← (Option.some.injEq ..).mp hgej]
          show 1 ≤ e.refs - 1
          omega
        · rw [hGne j hne] at hgej
          exact hI.refs_pos j ej hgej
      · intro j hj
        rw [hIds]
        exact hI.held_heap j (hheld_sub j hj)
      · intro j hj
        rw [hIds] at hj
        exact hI.heap_fresh j hj
      · intro j ej hgej
        by_cases hne : j = i
        · subst hne
          rw [hGid] at hgej
          rw [← (Option.some.injEq ..).mp hgej]
          exact hI.heap_ins j e hge
        · rw [hGne j hne] at hgej
          exact hI.heap_ins j ej hgej
      · intro j hjlt
        show j ∈ heapIds (heapSet s.heap i { e with refs := e.refs - 1 }) ↔ _
        rw [hIds]
        exact hI.heap_del j hjlt
      · intro e' hge'
        rw [hge] at hge'
        rw [← (Option.some.injEq ..).mp hge']
        refine ⟨fun hc => absurd hc h1, fun _ => ⟨hGid, rfl, ?_, fun _ => ⟨rfl, rfl⟩⟩⟩
        intro hc
        exact absurd hc hmv

/-- `LRUCache::Lookup` preserves the invariant; a miss changes nothing,
a hit bumps the entry's reference count and hands the handle out. -/
theorem lookup_preserve {s : ShardState} (hI : InvC s (fun _ => True)) (k h : Nat) :
    InvC (lookupOp s k h).1 (fun _ => True)
    ∧ ((lookupOp s k h).2 = none → (lookupOp s k h).1 = s)
    ∧ (lookupOp s k h).1.capacity = s.capacity
    ∧ (lookupOp s k h).1.nextId = s.nextId
    ∧ (∀ x, s.table.find k h = some x → (lookupOp s k h).2 = some x.id ∧
        ∃ e, heapGet s.heap x.id = some e ∧
          heapGet (lookupOp s k h).1.heap x.id =
            some { e with refs := e.refs + 1 } ∧
          e.in_cache = true ∧ e.key = k ∧ e.hash = h) := by
  cases hf : s.table.find k h with
  | none =>
    have hs : lookupOp s k h = (s, none) := by
      simp only [lookupOp, hf]
    rw [hs]
    exact ⟨hI, fun _ => rfl, rfl, rfl, fun x hx => Option.noConfusion hx⟩
  | some x =>
    obtain ⟨hxmem, hxh, hxk⟩ := HandleTable.find_some_spec hf
    obtain ⟨e, hge, hic, hek, heh⟩ := hI.table_heap x hxmem
    have hids : x.id ∈ heapIds s.heap := heapGet_some_mem_ids hge
    have hacc := hI.refs_acc x.id e hge
    rw [hic] at hacc
    simp only [if_pos] at hacc
    have hcount_ne : ∀ j, j ≠ x.id →
        (s.held ++ [x.id]).count j = s.held.count j := by
      intro j hj
      rw [List.count_append]
      simp [hj]
    have hcount_i : (s.held ++ [x.id]).count x.id = s.held.count x.id + 1 := by
      rw [List.count_append]
      simp
    have hs : lookupOp s k h =
        ({ RefOp s x.id with held := (RefOp s x.id).held ++ [x.id] }, some x.id) := by
      simp only [lookupOp, hf]
    by_cases hr1 : e.refs = 1
    -- the entry was on lru_: move it to in_use_
    · have hil : x.id ∈ s.lru := by
        rcases hI.in_cache_mem x.id e hge hic with hm | hm
        · exact hm
        · obtain ⟨e', hge', hr', _⟩ := hI.in_use_refs x.id hm
          rw [hge] at hge'
          rw [← (Option.some.injEq ..).mp hge'] at hr'
          omega
      have hniu : x.id ∉ s.in_use := hI.lists_disj x.id hil
      have hcnt0 : s.held.count x.id = 0 := hI.lru_count_zero hil
      have heqM : lookupOp s k h =
          ({ s with lru := s.lru.erase x.id, in_use := s.in_use ++ [x.id], heap := heapSet s.heap x.id { e with refs := e.refs + 1 }, held := s.held ++ [x.id] }, some x.id) := by
        rw [hs, RefOp_eq_move s x.id e hge ⟨hr1, hic⟩]
        rw [List.erase_of_not_mem hniu]
      rw [heqM]
      have hGne : ∀ j, j ≠ x.id →
          heapGet (heapSet s.heap x.id { e with refs := e.refs + 1 }) j =
            heapGet s.heap j :=
        fun j hj => heapGet_set_ne s.heap x.id j _ hj
      have hGid : heapGet (heapSet s.heap x.id { e with refs := e.refs + 1 }) x.id =
          some { e with refs := e.refs + 1 } := heapGet_set_self hids _
      have hIds : heapIds (heapSet s.heap x.id { e with refs := e.refs + 1 }) =
          heapIds s.heap := heapSet_ids ..
      refine ⟨⟨by rw [hIds]; exact hI.heap_nodup, hI.lru_nodup.erase _, ?_, ?_,
        ?_, ?_, ?_, hI.table_wf, ?_, ?_, fun _ _ => trivial, ?_, ?_, ?_, ?_,
        ?_, hI.ins_ids, ?_, hI.del_ins, hI.del_nodup, ?_⟩,
        fun hc => Option.noConfusion hc, rfl, rfl, ?_⟩
      · rw [List.nodup_append]
        exact ⟨hI.in_use_nodup, List.nodup_singleton _,
          fun a ha hb => by rw [List.mem_singleton.mp hb] at ha; exact hniu ha⟩
      · intro j hj
        obtain ⟨hne, hm⟩ := hI.lru_nodup.mem_erase_iff.mp hj
        intro hc
        rcases List.mem_append.mp hc with hm2 | hm2
        · exact hI.lists_disj j hm hm2
        · exact hne (List.mem_singleton.mp hm2)
      · intro j hj
        obtain ⟨hne, hm⟩ := hI.lru_nodup.mem_erase_iff.mp hj
        obtain ⟨ej, hgej, hj2⟩ := hI.lru_refs j hm
        exact ⟨ej, by rw [hGne j hne]; exact hgej, hj2⟩
      · intro j hj
        rcases List.mem_append.mp hj with hm | hm
        · have hne : j ≠ x.id := fun hc => hniu (hc ▸ hm)
          obtain ⟨ej, hgej, hj2⟩ := hI.in_use_refs j hm
          exact ⟨ej, by rw [hGne j hne]; exact hgej, hj2⟩
        · rw [List.mem_singleton.mp hm]
          refine ⟨{ e with refs := e.refs + 1 }, hGid, ?_, hic⟩
          show 2 ≤ e.refs + 1
          omega
      · intro j ej hgej hicj
        by_cases hne : j = x.id
        · subst hne
          exact Or.inr (List.mem_append.mpr (Or.inr (by simp)))
        · rw [hGne j hne] at hgej
          rcases hI.in_cache_mem j ej hgej hicj with hm | hm
          · exact Or.inl ((List.mem_erase_of_ne hne).mpr hm)
          · exact Or.inr (List.mem_append.mpr (Or.inl hm))
      · intro y hy
        obtain ⟨ey, hgey, hy2⟩ := hI.table_heap y hy
        by_cases hne : y.id = x.id
        · rw [hne] at hgey ⊢
          rw [hge] at hgey
          have he2 : ey = e := (Option.some.injEq ..).mp hgey.symm
          rw [he2] at hy2
          exact ⟨{ e with refs := e.refs + 1 }, hGid, hy2⟩
        · exact ⟨ey, by rw [hGne y.id hne]; exact hgey, hy2⟩
      · intro j ej hgej hicj _
        by_cases hne : j = x.id
        · subst hne
          rw [hGid] at hgej
          rw [← (Option.some.injEq ..).mp hgej] at hicj ⊢
          exact hI.in_cache_table x.id e hge hicj trivial
        · rw [hGne j hne] at hgej
          exact hI.in_cache_table j ej hgej hicj trivial
      · show s.usage = _
        rw [hI.usage_eq]
        have hpA : (s.lru.erase x.id ++ (s.in_use ++ [x.id])).Perm
            (s.lru.erase x.id ++ (x.id :: s.in_use)) :=
          List.Perm.append_left _ (List.perm_append_singleton x.id s.in_use)
        have hpB : (s.lru.erase x.id ++ (x.id :: s.in_use)).Perm
            (x.id :: (s.lru.erase x.id ++ s.in_use)) := List.perm_middle
        have hpC : (s.lru ++ s.in_use).Perm
            (x.id :: (s.lru.erase x.id ++ s.in_use)) := by
          have := (List.perm_cons_erase hil).append_right s.in_use
          simpa using this
        have hperm : (s.lru.erase x.id ++ (s.in_use ++ [x.id])).Perm
            (s.lru ++ s.in_use) := (hpA.trans hpB).trans hpC.symm
        rw [← (hperm.map (chargeOf s.heap)).sum_eq]
        congr 1
        apply List.map_congr_left
        intro j hj
        by_cases hne : j = x.id
        · subst hne
          simp [chargeOf, hGid, hge]
        · simp [chargeOf, hGne j hne]
      · intro j ej hgej
        by_cases hne : j = x.id
        · subst hne
          rw [hGid] at hgej
          rw [← (Option.some.injEq ..).mp hgej]
          show e.refs + 1 = _ + _
          rw [hcount_i, hic]
          simp only [if_pos]
          omega
        · rw [hGne j hne] at hgej
          rw [hI.refs_acc j ej hgej, hcount_ne j hne]
      · intro j ej hgej
        by_cases hne : j = x.id
        · subst hne
          rw [hGid] at hgej
          rw [← (Option.some.injEq ..).mp hgej]
          show 1 ≤ e.refs + 1
          omega
        · rw [hGne j hne] at hgej
          exact hI.refs_pos j ej hgej
      · intro j hj
        rw [hIds]
        rcases List.mem_append.mp hj with hm | hm
        · exact hI.held_heap j hm
        · rw [List.mem_singleton.mp hm]
          exact hids
      · intro j hj
        rw [hIds] at hj
        exact hI.heap_fresh j hj
      · intro j ej hgej
        by_cases hne : j = x.id
        · subst hne
          rw [hGid] at hgej
          rw [← (Option.some.injEq ..).mp hgej]
          exact hI.heap_ins x.id e hge
        · rw [hGne j hne] at hgej
          exact hI.heap_ins j ej hgej
      · intro j hjlt
        show j ∈ heapIds (heapSet s.heap x.id { e with refs := e.refs + 1 }) ↔ _
        rw [hIds]
        exact hI.heap_del j hjlt
      · intro y hy
        have : y = x := (Option.some.injEq ..).mp (hf ▸ hy.symm)
        subst this
        exact ⟨rfl, e, hge, hGid, hic, hek.trans hxk, heh.trans hxh⟩
    -- the entry was already pinned: only refs++
    · have hiu : x.id ∈ s.in_use := by
        rcases hI.in_cache_mem x.id e hge hic with hm | hm
        · obtain ⟨e', hge', hr', _⟩ := hI.lru_refs x.id hm
          rw [hge] at hge'
          rw [← (Option.some.injEq ..).mp hge'] at hr'
          omega
        · exact hm
      have hnl : x.id ∉ s.lru := fun hc => hI.lists_disj x.id hc hiu
      have heqS : lookupOp s k h =
          ({ s with heap := heapSet s.heap x.id { e with refs := e.refs + 1 }, held := s.held ++ [x.id] }, some x.id) := by
        rw [hs, RefOp_eq_stay s x.id e hge (fun hc => hr1 hc.1)]
      rw [heqS]
      have hGne : ∀ j, j ≠ x.id →
          heapGet (heapSet s.heap x.id { e with refs := e.refs + 1 }) j =
            heapGet s.heap j :=
        fun j hj => heapGet_set_ne s.heap x.id j _ hj
      have hGid : heapGet (heapSet s.heap x.id { e with refs := e.refs + 1 }) x.id =
          some { e with refs := e.refs + 1 } := heapGet_set_self hids _
      have hIds : heapIds (heapSet s.heap x.id { e with refs := e.refs + 1 }) =
          heapIds s.heap := heapSet_ids ..
      refine ⟨⟨by rw [hIds]; exact hI.heap_nodup, hI.lru_nodup,
        hI.in_use_nodup, hI.lists_disj, ?_, ?_, ?_, hI.table_wf, ?_, ?_,
        fun _ _ => trivial, ?_, ?_, ?_, ?_, ?_, hI.ins_ids, ?_, hI.del_ins,
        hI.del_nodup, ?_⟩, fun hc => Option.noConfusion hc, rfl, rfl, ?_⟩
      · intro j hj
        have hne : j ≠ x.id := fun hc => hnl (hc ▸ hj)
        obtain ⟨ej, hgej, hj2⟩ := hI.lru_refs j hj
        exact ⟨ej, by rw [hGne j hne]; exact hgej, hj2⟩
      · intro j hj
        by_cases hne : j = x.id
        · subst hne
          refine ⟨{ e with refs := e.refs + 1 }, hGid, ?_, hic⟩
          show 2 ≤ e.refs + 1
          omega
        · obtain ⟨ej, hgej, hj2⟩ := hI.in_use_refs j hj
          exact ⟨ej, by rw [hGne j hne]; exact hgej, hj2⟩
      · intro j ej hgej hicj
        by_cases hne : j = x.id
        · subst hne
          exact Or.inr hiu
        · rw [hGne j hne] at hgej
          exact hI.in_cache_mem j ej hgej hicj
      · intro y hy
        obtain ⟨ey, hgey, hy2⟩ := hI.table_heap y hy
        by_cases hne : y.id = x.id
        · rw [hne] at hgey ⊢
          rw [hge] at hgey
          have he2 : ey = e := (Option.some.injEq ..).mp hgey.symm
          rw [he2] at hy2
          exact ⟨{ e with refs := e.refs + 1 }, hGid, hy2⟩
        · exact ⟨ey, by rw [hGne y.id hne]; exact hgey, hy2⟩
      · intro j ej hgej hicj _
        by_cases hne : j = x.id
        · subst hne
          rw [hGid] at hgej
          rw [← (Option.some.injEq ..).mp hgej] at hicj ⊢
          exact hI.in_cache_table x.id e hge hicj trivial
        · rw [hGne j hne] at hgej
          exact hI.in_cache_table j ej hgej hicj trivial
      · show s.usage = _
        rw [hI.usage_eq]
        congr 1
        apply List.map_congr_left
        intro j hj
        by_cases hne : j = x.id
        · subst hne
          simp [chargeOf, hGid, hge]
        · simp [chargeOf, hGne j hne]
      · intro j ej hgej
        by_cases hne : j = x.id
        · subst hne
          rw [hGid] at hgej
          rw [← (Option.some.injEq ..).mp hgej]
          show e.refs + 1 = _ + _
          rw [hcount_i, hic]
          simp only [if_pos]
          omega
        · rw [hGne j hne] at hgej
          rw [hI.refs_acc j ej hgej, hcount_ne j hne]
      · intro j ej hgej
        by_cases hne : j = x.id
        · subst hne
          rw [hGid] at hgej
          rw [← (Option.some.injEq ..).mp hgej]
          show 1 ≤ e.refs + 1
          omega
        · rw [hGne j hne] at hgej
          exact hI.refs_pos j ej hgej
      · intro j hj
        rw [hIds]
        rcases List.mem_append.mp hj with hm | hm
        · exact hI.held_heap j hm
        · rw [List.mem_singleton.mp hm]
          exact hids
      · intro j hj
        rw [hIds] at hj
        exact hI.heap_fresh j hj
      · intro j ej hgej
        by_cases hne : j = x.id
        · subst hne
          rw [hGid] at hgej
          rw [← (Option.some.injEq ..).mp hgej]
          exact hI.heap_ins x.id e hge
        · rw [hGne j hne] at hgej
          exact hI.heap_ins j ej hgej
      · intro j hjlt
        show j ∈ heapIds (heapSet s.heap x.id { e with refs := e.refs + 1 }) ↔ _
        rw [hIds]
        exact hI.heap_del j hjlt
      · intro y hy
        have : y = x := (Option.some.injEq ..).mp (hf ▸ hy.symm)
        subst this
        exact ⟨rfl, e, hge, hGid, hic, hek.trans hxk, heh.trans hxh⟩

/-- Freshness of the next identifier. -/
theorem fresh_facts {s : ShardState} (hI : InvC s (fun _ => True)) :
    s.nextId ∉ heapIds s.heap ∧ s.nextId ∉ s.lru ∧ s.nextId ∉ s.in_use ∧
      s.nextId ∉ s.held ∧ (∀ x ∈ s.table.entries, x.id ≠ s.nextId) ∧
      s.nextId ∉ s.delLog.map Prod.fst := by
  have hfresh_ids : s.nextId ∉ heapIds s.heap :=
    fun hc => absurd (hI.heap_fresh _ hc) (by omega)
  refine ⟨hfresh_ids, fun hc => hfresh_ids (hI.list_mem_heap (Or.inl hc)),
    fun hc => hfresh_ids (hI.list_mem_heap (Or.inr hc)),
    fun hc => hfresh_ids (hI.held_heap _ hc), ?_, ?_⟩
  · intro x hx hc
    obtain ⟨e, hge, _⟩ := hI.table_heap x hx
    rw [hc] at hge
    exact hfresh_ids (heapGet_some_mem_ids hge)
  · intro hc
    rw [List.mem_map] at hc
    obtain ⟨r, hr, hr1⟩ := hc
    have hr2 : r ∈ s.insLog := hI.del_ins r hr
    have hr3 : r.1 ∈ s.insLog.map Prod.fst := List.mem_map_of_mem _ hr2
    rw [hI.ins_ids, hr1] at hr3
    exact absurd (List.mem_range.mp hr3) (by omega)

/-- The state in the middle of a caching `Insert` — the new record
allocated with two references, appended to `in_use_`, charged, and
installed in the table — satisfies the invariant at any predicate `P` for
which the two table obligations hold. -/
theorem insert_mid_inv {s : ShardState} (hI : InvC s (fun _ => True))
    (k h v c : Nat) (P : Nat → Prop)
    (hPt : ∀ y ∈ ((s.table.insert ⟨k, h, s.nextId⟩).2).entries, P y.id)
    (hPc : ∀ i2 e2,
      heapGet ((s.nextId, (⟨k, h, v, c, 2, true⟩ : LRUHandle)) :: s.heap) i2 =
        some e2 → e2.in_cache = true → P i2 →
      (⟨e2.key, e2.hash, i2⟩ : HTEntry) ∈
        ((s.table.insert ⟨k, h, s.nextId⟩).2).entries) :
    InvC { s with nextId := s.nextId + 1, insLog := s.insLog ++ [(s.nextId, k, v)], held := s.held ++ [s.nextId], heap := (s.nextId, ⟨k, h, v, c, 2, true⟩) :: s.heap, in_use := s.in_use ++ [s.nextId], usage := s.usage + c, table := (s.table.insert ⟨k, h, s.nextId⟩).2 } P := by
  obtain ⟨hfresh_ids, hfresh_lru, hfresh_inuse, hfresh_held, hfresh_tab,
    hfresh_del⟩ := fresh_facts hI
  obtain ⟨hfst, hwf', hmem', hnone', hsome'⟩ :=
    HandleTable.insert_spec hI.table_wf ⟨k, h, s.nextId⟩
  have hg_i : heapGet ((s.nextId, (⟨k, h, v, c, 2, true⟩ : LRUHandle)) :: s.heap)
      s.nextId = some ⟨k, h, v, c, 2, true⟩ := heapGet_cons_self ..
  have hg_ne : ∀ j, j ≠ s.nextId →
      heapGet ((s.nextId, (⟨k, h, v, c, 2, true⟩ : LRUHandle)) :: s.heap) j =
        heapGet s.heap j := fun j hj => heapGet_cons_ne s.heap s.nextId j _ hj
  have hcount_i : (s.held ++ [s.nextId]).count s.nextId = 1 := by
    rw [List.count_append]
    rw [List.count_eq_zero.mpr hfresh_held]
    simp
  have hcount_ne : ∀ j, j ≠ s.nextId →
      (s.held ++ [s.nextId]).count j = s.held.count j := by
    intro j hj
    rw [List.count_append]
    simp [hj]
  refine ⟨?_, hI.lru_nodup, ?_, ?_, ?_, ?_, ?_, hwf', ?_, hPc, hPt, ?_, ?_,
    ?_, ?_, ?_, ?_, ?_, ?_, hI.del_nodup, ?_⟩
  · show (heapIds ((s.nextId, _) :: s.heap)).Nodup
    show (s.nextId :: heapIds s.heap).Nodup
    exact List.nodup_cons.mpr ⟨hfresh_ids, hI.heap_nodup⟩
  · rw [List.nodup_append]
    exact ⟨hI.in_use_nodup, List.nodup_singleton _,
      fun a ha hb => by rw [List.mem_singleton.mp hb] at ha; exact hfresh_inuse ha⟩
  · intro j hj hc
    rcases List.mem_append.mp hc with hm | hm
    · exact hI.lists_disj j hj hm
    · rw [List.mem_singleton.mp hm] at hj
      exact hfresh_lru hj
  · intro j hj
    have hne : j ≠ s.nextId := fun hc => hfresh_lru (hc ▸ hj)
    obtain ⟨ej, hgej, hj2⟩ := hI.lru_refs j hj
    exact ⟨ej, by rw [hg_ne j hne]; exact hgej, hj2⟩
  · intro j hj
    rcases List.mem_append.mp hj with hm | hm
    · have hne : j ≠ s.nextId := fun hc => hfresh_inuse (hc ▸ hm)
      obtain ⟨ej, hgej, hj2⟩ := hI.in_use_refs j hm
      exact ⟨ej, by rw [hg_ne j hne]; exact hgej, hj2⟩
    · rw [List.mem_singleton.mp hm]
      exact ⟨⟨k, h, v, c, 2, true⟩, hg_i, le_refl 2, rfl⟩
  · intro j ej hgej hicj
    by_cases hne : j = s.nextId
    · subst hne
      exact Or.inr (List.mem_append.mpr (Or.inr (by simp)))
    · rw [hg_ne j hne] at hgej
      rcases hI.in_cache_mem j ej hgej hicj with hm | hm
      · exact Or.inl hm
      · exact Or.inr (List.mem_append.mpr (Or.inl hm))
  · intro y hy
    rcases (hmem' y).mp hy with rfl | ⟨hy2, _⟩
    · exact ⟨⟨k, h, v, c, 2, true⟩, hg_i, rfl, rfl, rfl⟩
    · obtain ⟨ey, hgey, hy3⟩ := hI.table_heap y hy2
      exact ⟨ey, by rw [hg_ne y.id (hfresh_tab y hy2)]; exact hgey, hy3⟩
  · show s.usage + c = _
    rw [← List.append_assoc, List.map_append, List.sum_append]
    have h1 : (List.map (chargeOf ((s.nextId, (⟨k, h, v, c, 2, true⟩ : LRUHandle)) :: s.heap)) [s.nextId]).sum = c := by
      simp [chargeOf, hg_i]
    rw [h1]
    have h2 : List.map (chargeOf ((s.nextId, (⟨k, h, v, c, 2, true⟩ : LRUHandle)) :: s.heap)) (s.lru ++ s.in_use) =
        List.map (chargeOf s.heap) (s.lru ++ s.in_use) := by
      apply List.map_congr_left
      intro j hj
      have hne : j ≠ s.nextId := by
        rintro rfl
        rcases List.mem_append.mp hj with hm | hm
        · exact hfresh_lru hm
        · exact hfresh_inuse hm
      simp [chargeOf, hg_ne j hne]
    rw [h2, ← hI.usage_eq]
  · intro j ej hgej
    by_cases hne : j = s.nextId
    · subst hne
      rw [hg_i] at hgej
      rw [← (Option.some.injEq ..).mp hgej]
      show 2 = _ + _
      rw [hcount_i]
      simp
    · rw [hg_ne j hne] at hgej
      rw [hI.refs_acc j ej hgej, hcount_ne j hne]
  · intro j ej hgej
    by_cases hne : j = s.nextId
    · subst hne
      rw [hg_i] at hgej
      rw [← (Option.some.injEq ..).mp hgej]
      show 1 ≤ 2
      omega
    · rw [hg_ne j hne] at hgej
      exact hI.refs_pos j ej hgej
  · intro j hj
    show j ∈ s.nextId :: heapIds s.heap
    rcases List.mem_append.mp hj with hm | hm
    · exact List.mem_cons_of_mem _ (hI.held_heap j hm)
    · rw [List.mem_singleton.mp hm]
      exact List.mem_cons_self _ _
  · intro j hj
    show j < s.nextId + 1
    have : j ∈ s.nextId :: heapIds s.heap := hj
    rcases List.mem_cons.mp this with rfl | hm
    · omega
    · have := hI.heap_fresh j hm
      omega
  · show (s.insLog ++ [(s.nextId, k, v)]).map Prod.fst = List.range (s.nextId + 1)
    rw [List.map_append, hI.ins_ids, List.range_succ]
    rfl
  · intro j ej hgej
    by_cases hne : j = s.nextId
    · subst hne
      rw [hg_i] at hgej
      rw [← (Option.some.injEq ..).mp hgej]
      exact List.mem_append.mpr (Or.inr (by simp))
    · rw [hg_ne j hne] at hgej
      exact List.mem_append.mpr (Or.inl (hI.heap_ins j ej hgej))
  · intro r hr
    exact List.mem_append.mpr (Or.inl (hI.del_ins r hr))
  · intro j hjlt
    have hjlt2 : j < s.nextId + 1 := hjlt
    show j ∈ s.nextId :: heapIds s.heap ↔ _
    by_cases hne : j = s.nextId
    · subst hne
      simp only [List.mem_cons, true_or, true_iff]
      exact hfresh_del
    · rw [List.mem_cons]
      constructor
      · rintro (rfl | hm)
        · exact absurd rfl hne
        · exact (hI.heap_del j (by omega)).mp hm
      · intro hc
        exact Or.inr ((hI.heap_del j (by omega)).mpr hc)

/-- The state in the middle of a `capacity == 0` `Insert`: the record is
allocated with a single reference and not cached; nothing else changes. -/
theorem insert_nocache_inv {s : ShardState} (hI : InvC s (fun _ => True))
    (k h v c : Nat) :
    InvC { s with nextId := s.nextId + 1, insLog := s.insLog ++ [(s.nextId, k, v)], held := s.held ++ [s.nextId], heap := (s.nextId, ⟨k, h, v, c, 1, false⟩) :: s.heap } (fun _ => True) := by
  obtain ⟨hfresh_ids, hfresh_lru, hfresh_inuse, hfresh_held, hfresh_tab,
    hfresh_del⟩ := fresh_facts hI
  have hg_i : heapGet ((s.nextId, (⟨k, h, v, c, 1, false⟩ : LRUHandle)) :: s.heap)
      s.nextId = some ⟨k, h, v, c, 1, false⟩ := heapGet_cons_self ..
  have hg_ne : ∀ j, j ≠ s.nextId →
      heapGet ((s.nextId, (⟨k, h, v, c, 1, false⟩ : LRUHandle)) :: s.heap) j =
        heapGet s.heap j := fun j hj => heapGet_cons_ne s.heap s.nextId j _ hj
  have hcount_i : (s.held ++ [s.nextId]).count s.nextId = 1 := by
    rw [List.count_append, List.count_eq_zero.mpr hfresh_held]
    simp
  have hcount_ne : ∀ j, j ≠ s.nextId →
      (s.held ++ [s.nextId]).count j = s.held.count j := by
    intro j hj
    rw [List.count_append]
    simp [hj]
  refine ⟨?_, hI.lru_nodup, hI.in_use_nodup, hI.lists_disj, ?_, ?_, ?_,
    hI.table_wf, ?_, ?_, fun _ _ => trivial, ?_, ?_, ?_, ?_, ?_, ?_, ?_, ?_,
    hI.del_nodup, ?_⟩
  · show (s.nextId :: heapIds s.heap).Nodup
    exact List.nodup_cons.mpr ⟨hfresh_ids, hI.heap_nodup⟩
  · intro j hj
    have hne : j ≠ s.nextId := fun hc => hfresh_lru (hc ▸ hj)
    obtain ⟨ej, hgej, hj2⟩ := hI.lru_refs j hj
    exact ⟨ej, by rw [hg_ne j hne]; exact hgej, hj2⟩
  · intro j hj
    have hne : j ≠ s.nextId := fun hc => hfresh_inuse (hc ▸ hj)
    obtain ⟨ej, hgej, hj2⟩ := hI.in_use_refs j hj
    exact ⟨ej, by rw [hg_ne j hne]; exact hgej, hj2⟩
  · intro j ej hgej hicj
    by_cases hne : j = s.nextId
    · subst hne
      rw [hg_i] at hgej
      rw [← (Option.some.injEq ..).mp hgej] at hicj
      exact Bool.noConfusion hicj
    · rw [hg_ne j hne] at hgej
      exact hI.in_cache_mem j ej hgej hicj
  · intro y hy
    obtain ⟨ey, hgey, hy3⟩ := hI.table_heap y hy
    exact ⟨ey, by rw [hg_ne y.id (hfresh_tab y hy)]; exact hgey, hy3⟩
  · intro j ej hgej hicj _
    by_cases hne : j = s.nextId
    · subst hne
      rw [hg_i] at hgej
      rw [← (Option.some.injEq ..).mp hgej] at hicj
      exact Bool.noConfusion hicj
    · rw [hg_ne j hne] at hgej
      exact hI.in_cache_table j ej hgej hicj trivial
  · show s.usage = _
    rw [hI.usage_eq]
    congr 1
    apply List.map_congr_left
    intro j hj
    have hne : j ≠ s.nextId := by
      rintro rfl
      rcases List.mem_append.mp hj with hm | hm
      · exact hfresh_lru hm
      · exact hfresh_inuse hm
    simp [chargeOf, hg_ne j hne]
  · intro j ej hgej
    by_cases hne : j = s.nextId
    · subst hne
      rw [hg_i] at hgej
      rw [← (Option.some.injEq ..).mp hgej]
      show 1 = _ + _
      rw [hcount_i]
      simp
    · rw [hg_ne j hne] at hgej
      rw [hI.refs_acc j ej hgej, hcount_ne j hne]
  · intro j ej hgej
    by_cases hne : j = s.nextId
    · subst hne
      rw [hg_i] at hgej
      rw [← (Option.some.injEq ..).mp hgej]
    · rw [hg_ne j hne] at hgej
      exact hI.refs_pos j ej hgej
  · intro j hj
    show j ∈ s.nextId :: heapIds s.heap
    rcases List.mem_append.mp hj with hm | hm
    · exact List.mem_cons_of_mem _ (hI.held_heap j hm)
    · rw [List.mem_singleton.mp hm]
      exact List.mem_cons_self _ _
  · intro j hj
    show j < s.nextId + 1
    have : j ∈ s.nextId :: heapIds s.heap := hj
    rcases List.mem_cons.mp this with rfl | hm
    · omega
    · have := hI.heap_fresh j hm
      omega
  · show (s.insLog ++ [(s.nextId, k, v)]).map Prod.fst = List.range (s.nextId + 1)
    rw [List.map_append, hI.ins_ids, List.range_succ]
    rfl
  · intro j ej hgej
    by_cases hne : j = s.nextId
    · subst hne
      rw [hg_i] at hgej
      rw [← (Option.some.injEq ..).mp hgej]
      exact List.mem_append.mpr (Or.inr (by simp))
    · rw [hg_ne j hne] at hgej
      exact List.mem_append.mpr (Or.inl (hI.heap_ins j ej hgej))
  · intro r hr
    exact List.mem_append.mpr (Or.inl (hI.del_ins r hr))
  · intro j hjlt
    have hjlt2 : j < s.nextId + 1 := hjlt
    show j ∈ s.nextId :: heapIds s.heap ↔ _
    by_cases hne : j = s.nextId
    · subst hne
      simp only [List.mem_cons, true_or, true_iff]
      exact hfresh_del
    · rw [List.mem_cons]
      constructor
      · rintro (rfl | hm)
        · exact absurd rfl hne
        · exact (hI.heap_del j (by omega)).mp hm
      · intro hc
        exact Or.inr ((hI.heap_del j (by omega)).mpr hc)

/-- `LRUCache::Insert` preserves the invariant; the returned handle is the
fresh record, which carries the given key, hash, value and charge; under
a positive capacity it is cached and pinned; and after the eviction loop
either the budget is met or nothing evictable remains. -/
theorem insert_preserve {s : ShardState} (hI : InvC s (fun _ => True))
    (k h v c : Nat) :
    InvC (insertOp s k h v c).1 (fun _ => True)
    ∧ (insertOp s k h v c).2 = s.nextId
    ∧ (insertOp s k h v c).1.capacity = s.capacity
    ∧ (insertOp s k h v c).1.nextId = s.nextId + 1
    ∧ ((insertOp s k h v c).1.usage ≤ s.capacity ∨ (insertOp s k h v c).1.lru = [])
    ∧ (∃ e', heapGet (insertOp s k h v c).1.heap s.nextId = some e' ∧
        e'.key = k ∧ e'.hash = h ∧ e'.value = v ∧ e'.charge = c ∧
        (0 < s.capacity → e'.in_cache = true ∧
          s.nextId ∈ (insertOp s k h v c).1.in_use)) := by
  obtain ⟨hfresh_ids, hfresh_lru, hfresh_inuse, hfresh_held, hfresh_tab,
    hfresh_del⟩ := fresh_facts hI
  obtain ⟨hfst, hwf', hmem', hnone', hsome'⟩ :=
    HandleTable.insert_spec hI.table_wf ⟨k, h, s.nextId⟩
  by_cases hcap : 0 < s.capacity
  · have hins : insertOp s k h v c =
        (evictLoop (FinishEraseOp { s with nextId := s.nextId + 1, insLog := s.insLog ++ [(s.nextId, k, v)], held := s.held ++ [s.nextId], heap := (s.nextId, ⟨k, h, v, c, 2, true⟩) :: s.heap, in_use := s.in_use ++ [s.nextId], usage := s.usage + c, table := (s.table.insert ⟨k, h, s.nextId⟩).2 } (s.table.insert ⟨k, h, s.nextId⟩).1).lru.length
          (FinishEraseOp { s with nextId := s.nextId + 1, insLog := s.insLog ++ [(s.nextId, k, v)], held := s.held ++ [s.nextId], heap := (s.nextId, ⟨k, h, v, c, 2, true⟩) :: s.heap, in_use := s.in_use ++ [s.nextId], usage := s.usage + c, table := (s.table.insert ⟨k, h, s.nextId⟩).2 } (s.table.insert ⟨k, h, s.nextId⟩).1),
          s.nextId) := by
      simp only [insertOp]
      rw [if_pos hcap]
    cases hp : (s.table.insert ⟨k, h, s.nextId⟩).1 with
    | none =>
      have hfind : s.table.find k h = none := by
        have := hfst
        rw [hp] at this
        exact this.symm
      have hnomatch := HandleTable.find_none_spec hI.table_wf hfind
      have hImid := insert_mid_inv hI k h v c (fun _ => True)
        (fun y _ => trivial) ?hPc
      case hPc =>
        intro i2 e2 hge2 hic2 _
        by_cases hne : i2 = s.nextId
        · subst hne
          rw [heapGet_cons_self] at hge2
          rw [← (Option.some.injEq ..).mp hge2]
          exact (hmem' _).mpr (Or.inl rfl)
        · rw [heapGet_cons_ne _ _ _ _ hne] at hge2
          have hold := hI.in_cache_table i2 e2 hge2 hic2 trivial
          refine (hmem' _).mpr (Or.inr ⟨hold, ?_⟩)
          intro hc
          exact hnomatch _ hold ⟨hc.1, hc.2⟩
      rw [hins, hp, FinishEraseOp_none]
      obtain ⟨lInv, lcap, lnid, lheld, lins, linuse, lheap, ltab, llen⟩ :=
        evictLoop_inv _ _ hImid
      refine ⟨lInv, rfl, lcap, lnid, ?_, ?_⟩
      · rcases llen (le_refl _) with hle | hnil
        · left
          rw [lcap] at hle
          exact hle
        · right
          exact hnil
      · refine ⟨⟨k, h, v, c, 2, true⟩, ?_, rfl, rfl, rfl, rfl, fun _ => ⟨rfl, ?_⟩⟩
        · rw [lheap s.nextId hfresh_lru]
          exact heapGet_cons_self ..
        · rw [linuse]
          exact List.mem_append.mpr (Or.inr (by simp))
    | some o =>
      have hfind : s.table.find k h = some o := by
        have := hfst
        rw [hp] at this
        exact this.symm
      obtain ⟨homem, hoh, hok⟩ := HandleTable.find_some_spec hfind
      obtain ⟨eo, hgeo, hico, heok, heoh⟩ := hI.table_heap o homem
      have ho_ne : o.id ≠ s.nextId := hfresh_tab o homem
      have hIX := insert_mid_inv hI k h v c (· ≠ o.id) ?hPt ?hPc
      case hPt =>
        intro y hy
        rcases (hmem' y).mp hy with rfl | ⟨hy2, hy3⟩
        · show s.nextId ≠ o.id
          exact fun hc => ho_ne hc.symm
        · intro hc
          have : y = o := hI.table_id_inj hy2 homem hc
          subst this
          exact hy3 ⟨hok, hoh⟩
      case hPc =>
        intro i2 e2 hge2 hic2 hne2
        by_cases hne : i2 = s.nextId
        · subst hne
          rw [heapGet_cons_self] at hge2
          rw [← (Option.some.injEq ..).mp hge2]
          exact (hmem' _).mpr (Or.inl rfl)
        · rw [heapGet_cons_ne _ _ _ _ hne] at hge2
          have hold := hI.in_cache_table i2 e2 hge2 hic2 trivial
          refine (hmem' _).mpr (Or.inr ⟨hold, ?_⟩)
          rintro ⟨hck, hch⟩
          have hck2 : e2.key = k := hck
          have hch2 : e2.hash = h := hch
          refine hne2 (hI.in_cache_kh_inj (fun _ => trivial) hge2 hgeo hic2 hico ?_ ?_)
          · rw [hck2, heok, hok]
          · rw [hch2, heoh, hoh]
      have hgeo' : heapGet ((s.nextId, (⟨k, h, v, c, 2, true⟩ : LRUHandle)) :: s.heap) o.id = some eo := by
        rw [heapGet_cons_ne _ _ _ _ ho_ne]
        exact hgeo
      obtain ⟨feInv, fecap, fenid, feheld, feins, fetab, felru, feinuse,
        feusage, feGne, fefree, fedec⟩ := finishErase_inv hIX hgeo' hico
      rw [hins, hp]
      obtain ⟨lInv, lcap, lnid, lheld, lins, linuse, lheap, ltab, llen⟩ :=
        evictLoop_inv _ _ feInv
      have hni_lru : s.nextId ∉ (FinishEraseOp { s with nextId := s.nextId + 1, insLog := s.insLog ++ [(s.nextId, k, v)], held := s.held ++ [s.nextId], heap := (s.nextId, ⟨k, h, v, c, 2, true⟩) :: s.heap, in_use := s.in_use ++ [s.nextId], usage := s.usage + c, table := (s.table.insert ⟨k, h, s.nextId⟩).2 } (some o)).lru := by
        rw [felru]
        intro hc
        exact hfresh_lru (List.mem_of_mem_erase hc)
      refine ⟨lInv, rfl, lcap.trans fecap, lnid.trans fenid, ?_, ?_⟩
      · rcases llen (le_refl _) with hle | hnil
        · left
          rw [lcap.trans fecap] at hle
          exact hle
        · right
          exact hnil
      · refine ⟨⟨k, h, v, c, 2, true⟩, ?_, rfl, rfl, rfl, rfl, fun _ => ⟨rfl, ?_⟩⟩
        · rw [lheap s.nextId hni_lru, feGne s.nextId (fun hc => ho_ne hc.symm)]
          exact heapGet_cons_self ..
        · rw [linuse, feinuse]
          exact (List.mem_erase_of_ne (fun hc => ho_ne hc.symm)).mpr
            (List.mem_append.mpr (Or.inr (by simp)))
  · have hins : insertOp s k h v c =
        (evictLoop ({ s with nextId := s.nextId + 1, insLog := s.insLog ++ [(s.nextId, k, v)], held := s.held ++ [s.nextId], heap := (s.nextId, ⟨k, h, v, c, 1, false⟩) :: s.heap } : ShardState).lru.length
          { s with nextId := s.nextId + 1, insLog := s.insLog ++ [(s.nextId, k, v)], held := s.held ++ [s.nextId], heap := (s.nextId, ⟨k, h, v, c, 1, false⟩) :: s.heap },
          s.nextId) := by
      simp only [insertOp]
      rw [if_neg hcap]
    have hI0 := insert_nocache_inv hI k h v c
    rw [hins]
    obtain ⟨lInv, lcap, lnid, lheld, lins, linuse, lheap, ltab, llen⟩ :=
      evictLoop_inv _ _ hI0
    refine ⟨lInv, rfl, lcap, lnid, ?_, ?_⟩
    · rcases llen (le_refl _) with hle | hnil
      · left
        rw [lcap] at hle
        exact hle
      · right
        exact hnil
    · refine ⟨⟨k, h, v, c, 1, false⟩, ?_, rfl, rfl, rfl, rfl,
        fun hc => absurd hc hcap⟩
      rw [lheap s.nextId hfresh_lru]
      exact heapGet_cons_self ..

/-- A fresh shard satisfies the invariant. -/
theorem init_inv (cap : Nat) : InvC (initState cap) (fun _ => True) := by
  refine ⟨List.nodup_nil, List.nodup_nil, List.nodup_nil, ?_, ?_, ?_, ?_,
    HandleTable.init_WF, ?_, ?_, fun _ _ => trivial, rfl, ?_, ?_, ?_, ?_, rfl,
    ?_, ?_, List.nodup_nil, ?_⟩
  · intro i hi
    cases hi
  · intro i hi
    cases hi
  · intro i hi
    cases hi
  · intro i e hge
    cases hge
  · intro x hx
    have hx2 : x ∈ HandleTable.init.entries := hx
    rw [HandleTable.init_entries] at hx2
    cases hx2
  · intro i e hge
    cases hge
  · intro i e hge
    cases hge
  · intro i e hge
    cases hge
  · intro i hi
    cases hi
  · intro i hi
    cases hi
  · intro i e hge
    cases hge
  · intro r hr
    cases hr
  · intro i hi
    cases hi

/-- Every reachable shard state satisfies the invariant (§3). -/
theorem reach_inv {s : ShardState} (hr : Reach s) : InvC s (fun _ => True) := by
  induction hr with
  | init cap => exact init_inv cap
  | insert k h v c _ ih => exact (insert_preserve ih k h v c).1
  | lookup k h _ ih => exact (lookup_preserve ih k h).1
  | release i _ hheld ih => exact (release_preserve ih hheld).1
  | erase k h _ ih => exact (erase_preserve ih k h).1
  | prune _ ih => exact (pruneLoop_inv _ _ ih).1

theorem entries_nil_find {t : HandleTable} (hemp : t.entries = [])
    (k h : Nat) : t.find k h = none := by
  have hb : t.list.getD (h &&& (t.length - 1)) [] = [] := by
    rcases Nat.lt_or_ge (h &&& (t.length - 1)) t.list.length with hlt | hge
    · have hmem : t.list.getD (h &&& (t.length - 1)) [] ∈ t.list := by
        rw [List.getD_eq_get t.list [] hlt]
        exact List.get_mem t.list _ hlt
      exact List.flatten_eq_nil_iff.mp hemp _ hmem
    · exact getD_default_of_ge _ _ _ hge
  rw [HandleTable.find, hb]
  rfl

/-- With the caches disabled (`capacity == 0`), a reachable shard holds
nothing: the table and both lists stay empty and `usage_` stays zero. -/
theorem reach_cap0 {s : ShardState} (hr : Reach s) (hcap : s.capacity = 0) :
    s.table.entries = [] ∧ s.lru = [] ∧ s.in_use = [] ∧ s.usage = 0 := by
  induction hr with
  | init cap => exact ⟨HandleTable.init_entries, rfl, rfl, rfl⟩
  | insert k h v c hr ih =>
    rename_i s0
    have hI := reach_inv hr
    have hcap0 : s0.capacity = 0 := by
      rw [← (insert_preserve hI k h v c).2.2.1]
      exact hcap
    obtain ⟨htab, hlru, hinuse, husage⟩ := ih hcap0
    have hins : insertOp s0 k h v c =
        (evictLoop ({ s0 with nextId := s0.nextId + 1, insLog := s0.insLog ++ [(s0.nextId, k, v)], held := s0.held ++ [s0.nextId], heap := (s0.nextId, ⟨k, h, v, c, 1, false⟩) :: s0.heap } : ShardState).lru.length
          { s0 with nextId := s0.nextId + 1, insLog := s0.insLog ++ [(s0.nextId, k, v)], held := s0.held ++ [s0.nextId], heap := (s0.nextId, ⟨k, h, v, c, 1, false⟩) :: s0.heap },
          s0.nextId) := by
      simp only [insertOp]
      rw [if_neg (by omega)]
    have hloop := evictLoop_le (s := { s0 with nextId := s0.nextId + 1, insLog := s0.insLog ++ [(s0.nextId, k, v)], held := s0.held ++ [s0.nextId], heap := (s0.nextId, ⟨k, h, v, c, 1, false⟩) :: s0.heap }) (by show s0.usage ≤ s0.capacity; omega)
    rw [hins, hloop]
    exact ⟨htab, hlru, hinuse, husage⟩
  | lookup k h hr ih =>
    rename_i s0
    have hI := reach_inv hr
    have hcap0 : s0.capacity = 0 := by
      rw [← (lookup_preserve hI k h).2.2.1]
      exact hcap
    obtain ⟨htab, hlru, hinuse, husage⟩ := ih hcap0
    have hfind : s0.table.find k h = none := entries_nil_find htab k h
    have hmiss : (lookupOp s0 k h).1 = s0 :=
      (lookup_preserve hI k h).2.1 (by simp only [lookupOp, hfind])
    rw [hmiss]
    exact ⟨htab, hlru, hinuse, husage⟩
  | release i hr hheld ih =>
    rename_i s0
    have hI := reach_inv hr
    have hcap0 : s0.capacity = 0 := by
      rw [← (release_preserve hI hheld).2.1]
      exact hcap
    obtain ⟨htab, hlru, hinuse, husage⟩ := ih hcap0
    obtain ⟨e, hge⟩ : ∃ e, heapGet s0.heap i = some e := by
      cases hg : heapGet s0.heap i with
      | none =>
        exact absurd ((heapGet_none_iff ..).mp hg)
          (by simp [hI.held_heap i hheld])
      | some e => exact ⟨e, rfl⟩
    have hic : e.in_cache = false := by
      cases hc : e.in_cache with
      | false => rfl
      | true =>
        rcases hI.in_cache_mem i e hge hc with hm | hm
        · rw [hlru] at hm
          cases hm
        · rw [hinuse] at hm
          cases hm
    obtain ⟨rInv, rcap, rnid, rusage, rtab, rchar⟩ := release_preserve hI hheld
    obtain ⟨rfree, rdec⟩ := rchar e hge
    have hrefs := hI.refs_pos i e hge
    refine ⟨by rw [rtab]; exact htab, ?_, ?_, by rw [rusage]; exact husage⟩
    · by_cases h1 : e.refs = 1
      · rw [(rfree h1).2.2.1]
        exact hlru
      · have hd := rdec (by omega)
        rw [(hd.2.2.2 (fun hc => by rw [hic] at hc; exact Bool.noConfusion hc.1)).1]
        exact hlru
    · by_cases h1 : e.refs = 1
      · rw [(rfree h1).2.2.2]
        exact hinuse
      · have hd := rdec (by omega)
        rw [(hd.2.2.2 (fun hc => by rw [hic] at hc; exact Bool.noConfusion hc.1)).2]
        exact hinuse
  | erase k h hr ih =>
    rename_i s0
    have hI := reach_inv hr
    have hcap0 : s0.capacity = 0 := by
      rw [← (erase_preserve hI k h).2.1]
      exact hcap
    obtain ⟨htab, hlru, hinuse, husage⟩ := ih hcap0
    have hfind : s0.table.find k h = none := entries_nil_find htab k h
    rw [(erase_preserve hI k h).2.2.2.2.2.1 hfind]
    exact ⟨htab, hlru, hinuse, husage⟩
  | prune hr ih =>
    rename_i s0
    have hI := reach_inv hr
    have hcap0 : s0.capacity = 0 := by
      rw [← (pruneLoop_inv s0.lru.length s0 hI).2.1]
      exact hcap
    obtain ⟨htab, hlru, hinuse, husage⟩ := ih hcap0
    have : pruneOp s0 = s0 := by
      rw [pruneOp, hlru]
      rfl
    rw [this]
    exact ⟨htab, hlru, hinuse, husage⟩

/-! ### Helper lemmas for the claims -/

theorem heapGet_of_mem {hp : List (Nat × LRUHandle)} (hnd : (heapIds hp).Nodup)
    {i : Nat} {e : LRUHandle} (hm : (i, e) ∈ hp) : heapGet hp i = some e := by
  induction hp with
  | nil => cases hm
  | cons p rest ih =>
    simp only [heapIds, List.map_cons] at hnd
    have hnd' := List.nodup_cons.mp hnd
    rcases List.mem_cons.mp hm with rfl | hm'
    · simp [heapGet]
    · have hne : p.1 ≠ i := by
        intro hc
        apply hnd'.1
        rw [hc]
        exact List.mem_map_of_mem Prod.fst hm'
      simp only [heapGet, if_neg hne]
      exact ih hnd'.2 hm'

theorem nodup_fst_inj {l : List (Nat × Nat × Nat)} (hnd : (l.map Prod.fst).Nodup)
    {a b : Nat × Nat × Nat} (ha : a ∈ l) (hb : b ∈ l) (hfst : a.1 = b.1) :
    a = b := by
  induction l with
  | nil => cases ha
  | cons p rest ih =>
    simp only [List.map_cons] at hnd
    have hnd' := List.nodup_cons.mp hnd
    rcases List.mem_cons.mp ha with rfl | ha'
    · rcases List.mem_cons.mp hb with rfl | hb'
      · rfl
      · apply absurd _ hnd'.1
        rw [hfst]
        exact List.mem_map_of_mem Prod.fst hb'
    · rcases List.mem_cons.mp hb with rfl | hb'
      · apply absurd _ hnd'.1
        rw [← hfst]
        exact List.mem_map_of_mem Prod.fst ha'
      · exact ih hnd'.2 ha' hb'

theorem count_le_count_map (l : List (Nat × Nat × Nat)) (a : Nat × Nat × Nat) :
    l.count a ≤ (l.map Prod.fst).count a.1 := by
  induction l with
  | nil => simp
  | cons p rest ih =>
    simp only [List.count_cons, List.map_cons, beq_iff_eq]
    by_cases hpa : p = a
    · rw [if_pos hpa, if_pos (congrArg Prod.fst hpa)]
      omega
    · rw [if_neg hpa]
      by_cases h2 : p.1 = a.1
      · rw [if_pos h2]
        omega
      · rw [if_neg h2]
        omega

/-! ### The claims -/

/-- Claim C1: for every shard state reachable by any sequence of
insert/lookup/release/erase/prune operations, the shard's usage counter
equals the sum of the charges of the entries currently on the LRU and
InUse lists — equivalently, of all live heap records with `in_cache`
true. -/
theorem claim_C1 {s : ShardState} (hr : Reach s) :
    s.usage = ((s.lru ++ s.in_use).map (chargeOf s.heap)).sum
    ∧ s.usage =
      ((s.heap.filter (fun p => p.2.in_cache)).map (fun p => p.2.charge)).sum := by
  have hI := reach_inv hr
  refine ⟨hI.usage_eq, ?_⟩
  have hLnd : (s.lru ++ s.in_use).Nodup := by
    rw [List.nodup_append]
    exact ⟨hI.lru_nodup, hI.in_use_nodup,
      fun a ha hb => hI.lists_disj a ha hb⟩
  have hFsub : (s.heap.filter (fun p => p.2.in_cache)).Sublist s.heap :=
    List.filter_sublist ..
  have hGnd : ((s.heap.filter (fun p => p.2.in_cache)).map Prod.fst).Nodup :=
    hI.heap_nodup.sublist (hFsub.map Prod.fst)
  have hmemiff : ∀ j, j ∈ (s.heap.filter (fun p => p.2.in_cache)).map Prod.fst ↔
      j ∈ s.lru ++ s.in_use := by
    intro j
    constructor
    · intro hj
      obtain ⟨p, hpF, rfl⟩ := List.mem_map.mp hj
      obtain ⟨hpH, hpc⟩ := List.mem_filter.mp hpF
      have hget : heapGet s.heap p.1 = some p.2 :=
        heapGet_of_mem hI.heap_nodup (show (p.1, p.2) ∈ s.heap from hpH)
      rcases hI.in_cache_mem p.1 p.2 hget (by simpa using hpc) with hm | hm
      · exact List.mem_append.mpr (Or.inl hm)
      · exact List.mem_append.mpr (Or.inr hm)
    · intro hj
      rcases List.mem_append.mp hj with hm | hm
      · obtain ⟨e, hge, _, hic⟩ := hI.lru_refs j hm
        have : (j, e) ∈ s.heap.filter (fun p => p.2.in_cache) :=
          List.mem_filter.mpr ⟨heapGet_some_mem hge, by simpa using hic⟩
        exact List.mem_map_of_mem Prod.fst this
      · obtain ⟨e, hge, _, hic⟩ := hI.in_use_refs j hm
        have : (j, e) ∈ s.heap.filter (fun p => p.2.in_cache) :=
          List.mem_filter.mpr ⟨heapGet_some_mem hge, by simpa using hic⟩
        exact List.mem_map_of_mem Prod.fst this
  have hperm : ((s.heap.filter (fun p => p.2.in_cache)).map Prod.fst).Perm
      (s.lru ++ s.in_use) :=
    List.perm_of_nodup_nodup_toFinset_eq hGnd hLnd
      (Finset.ext fun a => by
        simp only [List.mem_toFinset]
        exact hmemiff a)
  calc s.usage
      = ((s.lru ++ s.in_use).map (chargeOf s.heap)).sum := hI.usage_eq
    _ = (((s.heap.filter (fun p => p.2.in_cache)).map Prod.fst).map
          (chargeOf s.heap)).sum := ((hperm.map _).sum_eq).symm
    _ = ((s.heap.filter (fun p => p.2.in_cache)).map (fun p => p.2.charge)).sum := by
        rw [List.map_map]
        apply congrArg List.sum
        apply List.map_congr_left
        intro p hp
        obtain ⟨hpH, _⟩ := List.mem_filter.mp hp
        show chargeOf s.heap p.1 = p.2.charge
        simp [chargeOf,
          heapGet_of_mem hI.heap_nodup (show (p.1, p.2) ∈ s.heap from hpH)]

theorem claim_C1_witness :
    (insertOp (initState 10) 1 2 3 4).1.usage =
      (((insertOp (initState 10) 1 2 3 4).1.lru ++
        (insertOp (initState 10) 1 2 3 4).1.in_use).map
          (chargeOf (insertOp (initState 10) 1 2 3 4).1.heap)).sum
    ∧ (insertOp (initState 10) 1 2 3 4).1.usage =
      (((insertOp (initState 10) 1 2 3 4).1.heap.filter
          (fun p => p.2.in_cache)).map (fun p => p.2.charge)).sum :=
  claim_C1 (Reach.insert 1 2 3 4 (Reach.init 10))

/-- Claim C2, counterexample to the claim as stated: with capacity 10,
inserting two entries of charge 6 while the client keeps both handles
leaves `usage = 12 > capacity = 10` after the second insert returns, yet
the newly inserted entry's charge 6 does not alone exceed the capacity —
so the stated exception ("the newly inserted entry alone exceeds capacity
and the LRU list is empty") does not apply.  Pinned entries alone can
hold the shard over budget. -/
theorem claim_C2_counterexample :
    Reach (insertOp (insertOp (initState 10) 0 0 0 6).1 1 1 0 6).1
    ∧ ¬((insertOp (insertOp (initState 10) 0 0 0 6).1 1 1 0 6).1.usage ≤
        (insertOp (insertOp (initState 10) 0 0 0 6).1 1 1 0 6).1.capacity)
    ∧ ¬(6 > (insertOp (insertOp (initState 10) 0 0 0 6).1 1 1 0 6).1.capacity ∧
        (insertOp (insertOp (initState 10) 0 0 0 6).1 1 1 0 6).1.lru = []) :=
  ⟨Reach.insert 1 1 0 6 (Reach.insert 0 0 0 6 (Reach.init 10)),
    by decide, by decide⟩

/-- Claim C2 (amended): after every call to the shard's insert returns,
`shard.usage ≤ shard.capacity`, except when the LRU list is empty (no
unpinned entry remains to evict — in particular when the still-referenced
entries' charges, or the newly inserted entry alone, exceed capacity). -/
theorem claim_C2_amended {s : ShardState} (hr : Reach s) (k h v c : Nat) :
    (insertOp s k h v c).1.usage ≤ (insertOp s k h v c).1.capacity ∨
      (insertOp s k h v c).1.lru = [] := by
  have hI := reach_inv hr
  obtain ⟨_, _, hcap, _, hul, _⟩ := insert_preserve hI k h v c
  rcases hul with hle | hnil
  · left
    rw [hcap]
    exact hle
  · right
    exact hnil

theorem claim_C2_amended_witness :
    (insertOp (initState 5) 0 0 0 1).1.usage ≤
      (insertOp (initState 5) 0 0 0 1).1.capacity ∨
    (insertOp (initState 5) 0 0 0 1).1.lru = [] :=
  claim_C2_amended (Reach.init 5) 0 0 0 1

/-- Claim C8: erase is idempotent — erasing a key the cache holds no
entry for leaves the state unchanged (and in particular invokes no
deleter), so a second `erase` of the same key immediately after a first
is a no-op. -/
theorem claim_C8 {s : ShardState} (hr : Reach s) (k h : Nat) :
    (s.table.find k h = none → eraseOp s k h = s)
    ∧ eraseOp (eraseOp s k h) k h = eraseOp s k h := by
  have hI := reach_inv hr
  obtain ⟨hInv1, _, _, _, _, hid, hfind1⟩ := erase_preserve hI k h
  refine ⟨hid, ?_⟩
  obtain ⟨_, _, _, _, _, hid2, _⟩ := erase_preserve hInv1 k h
  exact hid2 hfind1

theorem claim_C8_witness :
    eraseOp (eraseOp (insertOp (initState 10) 1 1 5 1).1 1 1) 1 1 =
      eraseOp (insertOp (initState 10) 1 1 5 1).1 1 1 :=
  (claim_C8 (Reach.insert 1 1 5 1 (Reach.init 10)) 1 1).2

/-- Claim C10: a lookup that misses returns the shard state entirely
unchanged — no reference count changes, no entry moves between lists,
and the hash table and usage counter are exactly as before the call. -/
theorem claim_C10 (s : ShardState) (k h : Nat)
    (hmiss : (lookupOp s k h).2 = none) : (lookupOp s k h).1 = s := by
  cases hf : s.table.find k h with
  | none => simp only [lookupOp, hf]
  | some x =>
    simp only [lookupOp, hf] at hmiss
    exact Option.noConfusion hmiss

theorem claim_C10_witness :
    (lookupOp (initState 5) 0 0).2 = none ∧
      (lookupOp (initState 5) 0 0).1 = initState 5 :=
  ⟨by decide, claim_C10 (initState 5) 0 0 (by decide)⟩

/-- Claim C3: for every held handle, release decrements the entry's
reference count; if the count becomes 0 the entry's deleter is invoked and
the record is freed; otherwise, if the entry is still `in_cache` and the
count becomes exactly 1, the entry is moved from the InUse list to the
newest end of the LRU list; in all other cases no list movement occurs. -/
theorem claim_C3 {s : ShardState} (hr : Reach s) {i : Nat} (hheld : i ∈ s.held)
    {e : LRUHandle} (hge : heapGet s.heap i = some e) :
    (e.refs = 1 → heapGet (releaseOp s i).heap i = none ∧
        (releaseOp s i).delLog = s.delLog ++ [(i, e.key, e.value)] ∧
        (releaseOp s i).lru = s.lru ∧ (releaseOp s i).in_use = s.in_use)
    ∧ (2 ≤ e.refs →
        heapGet (releaseOp s i).heap i = some { e with refs := e.refs - 1 } ∧
        (releaseOp s i).delLog = s.delLog ∧
        ((e.in_cache = true ∧ e.refs = 2) →
          i ∈ s.in_use ∧ (releaseOp s i).lru = s.lru ++ [i] ∧
          (releaseOp s i).in_use = s.in_use.erase i)
        ∧ (¬(e.in_cache = true ∧ e.refs = 2) →
          (releaseOp s i).lru = s.lru ∧
          (releaseOp s i).in_use = s.in_use)) :=
  (release_preserve (reach_inv hr) hheld).2.2.2.2.2 e hge

theorem claim_C3_witness :
    (releaseOp (insertOp (initState 10) 1 1 5 1).1 0).lru =
      (insertOp (initState 10) 1 1 5 1).1.lru ++ [0] := by
  have hge : heapGet (insertOp (initState 10) 1 1 5 1).1.heap 0 =
      some ⟨1, 1, 5, 1, 2, true⟩ := by decide
  exact (((claim_C3 (Reach.insert 1 1 5 1 (Reach.init 10)) (by decide) hge).2
    (by decide)).2.2.1 (by decide)).2.1

/-- Claim C4: when a shard's capacity is 0, every insert returns a valid
handle from which value yields the inserted value (the record exists with
`refs = 1` and `in_cache = false`), the entry is never placed in the hash
table or either list (so every subsequent lookup of that key misses), and
the deleter runs when that handle is released (refs drops from 1 to 0). -/
theorem claim_C4 {s : ShardState} (hr : Reach s) (hcap : s.capacity = 0)
    (k h v c : Nat) :
    (∃ e, heapGet (insertOp s k h v c).1.heap (insertOp s k h v c).2 = some e ∧
        e.key = k ∧ e.value = v ∧ e.refs = 1 ∧ e.in_cache = false)
    ∧ (insertOp s k h v c).1.table.entries = []
    ∧ (insertOp s k h v c).1.lru = []
    ∧ (insertOp s k h v c).1.in_use = []
    ∧ (∀ k2 h2, (lookupOp (insertOp s k h v c).1 k2 h2).2 = none)
    ∧ (heapGet (releaseOp (insertOp s k h v c).1
          (insertOp s k h v c).2).heap (insertOp s k h v c).2 = none
      ∧ (releaseOp (insertOp s k h v c).1 (insertOp s k h v c).2).delLog =
          (insertOp s k h v c).1.delLog ++ [((insertOp s k h v c).2, k, v)]) := by
  obtain ⟨htab, hlru, hinuse, husage⟩ := reach_cap0 hr hcap
  have hins : insertOp s k h v c =
      (evictLoop ({ s with nextId := s.nextId + 1, insLog := s.insLog ++ [(s.nextId, k, v)], held := s.held ++ [s.nextId], heap := (s.nextId, ⟨k, h, v, c, 1, false⟩) :: s.heap } : ShardState).lru.length
        { s with nextId := s.nextId + 1, insLog := s.insLog ++ [(s.nextId, k, v)], held := s.held ++ [s.nextId], heap := (s.nextId, ⟨k, h, v, c, 1, false⟩) :: s.heap },
        s.nextId) := by
    simp only [insertOp]
    rw [if_neg (by omega)]
  have hloop := evictLoop_le
    (s := { s with nextId := s.nextId + 1, insLog := s.insLog ++ [(s.nextId, k, v)], held := s.held ++ [s.nextId], heap := (s.nextId, ⟨k, h, v, c, 1, false⟩) :: s.heap })
    (by show s.usage ≤ s.capacity; omega)
  have h1 : (insertOp s k h v c).1 =
      { s with nextId := s.nextId + 1, insLog := s.insLog ++ [(s.nextId, k, v)], held := s.held ++ [s.nextId], heap := (s.nextId, ⟨k, h, v, c, 1, false⟩) :: s.heap } := by
    rw [hins, hloop]
  have h2 : (insertOp s k h v c).2 = s.nextId := by rw [hins]
  have hge : heapGet (insertOp s k h v c).1.heap (insertOp s k h v c).2 =
      some ⟨k, h, v, c, 1, false⟩ := by
    rw [h1, h2]
    exact heapGet_cons_self s.heap s.nextId _
  refine ⟨⟨⟨k, h, v, c, 1, false⟩, hge, rfl, rfl, rfl, rfl⟩, ?_, ?_, ?_, ?_, ?_⟩
  · rw [h1]
    exact htab
  · rw [h1]
    exact hlru
  · rw [h1]
    exact hinuse
  · intro k2 h2'
    have hr2 : Reach (insertOp s k h v c).1 := Reach.insert k h v c hr
    have hcap2 : (insertOp s k h v c).1.capacity = 0 := by
      rw [h1]
      exact hcap
    obtain ⟨htab2, -, -, -⟩ := reach_cap0 hr2 hcap2
    have hfind := entries_nil_find htab2 k2 h2'
    simp only [lookupOp, hfind]
  · have hI2 := reach_inv (Reach.insert k h v c hr)
    have hheld2 : (insertOp s k h v c).2 ∈ (insertOp s k h v c).1.held := by
      rw [h1, h2]
      show s.nextId ∈ s.held ++ [s.nextId]
      exact List.mem_append_right s.held (List.mem_singleton.mpr rfl)
    have hrel := ((release_preserve hI2 hheld2).2.2.2.2.2 ⟨k, h, v, c, 1, false⟩
      hge).1 rfl
    exact ⟨hrel.1, hrel.2.1⟩

theorem claim_C4_witness :
    (insertOp (initState 0) 7 8 9 1).1.lru = []
    ∧ (heapGet (releaseOp (insertOp (initState 0) 7 8 9 1).1
          (insertOp (initState 0) 7 8 9 1).2).heap
        (insertOp (initState 0) 7 8 9 1).2 = none
      ∧ (releaseOp (insertOp (initState 0) 7 8 9 1).1
          (insertOp (initState 0) 7 8 9 1).2).delLog =
        (insertOp (initState 0) 7 8 9 1).1.delLog ++
          [((insertOp (initState 0) 7 8 9 1).2, 7, 9)]) :=
  ⟨(claim_C4 (Reach.init 0) rfl 7 8 9 1).2.2.1,
    (claim_C4 (Reach.init 0) rfl 7 8 9 1).2.2.2.2.2⟩

/-- Claim C5: for every entry created by insert (recorded in the insertion
log), in every operation sequence in which its reference count reaches
zero (its heap record has been freed), the entry's deleter has been
invoked exactly once — never zero times and never twice — with the entry's
key and value. -/
theorem claim_C5 {s : ShardState} (hr : Reach s) {i k v : Nat}
    (hins : (i, k, v) ∈ s.insLog) (hdead : heapGet s.heap i = none) :
    s.delLog.count (i, k, v) = 1 ∧ (s.delLog.map Prod.fst).count i = 1 := by
  have hI := reach_inv hr
  have hilt : i < s.nextId := by
    have hm : i ∈ s.insLog.map Prod.fst := List.mem_map_of_mem Prod.fst hins
    rw [hI.ins_ids] at hm
    exact List.mem_range.mp hm
  have hnot : i ∉ heapIds s.heap := (heapGet_none_iff ..).mp hdead
  have hmemdel : i ∈ s.delLog.map Prod.fst := by
    by_contra hc
    exact hnot ((hI.heap_del i hilt).mpr hc)
  obtain ⟨r, hrdel, hri⟩ := List.mem_map.mp hmemdel
  have hrins := hI.del_ins r hrdel
  have hinsnd : (s.insLog.map Prod.fst).Nodup := by
    rw [hI.ins_ids]
    exact List.nodup_range _
  have hr_eq : r = (i, k, v) :=
    nodup_fst_inj hinsnd hrins hins (show r.1 = (i, k, v).1 from hri)
  subst hr_eq
  have hcount1 : (s.delLog.map Prod.fst).count i = 1 :=
    List.count_eq_one_of_mem hI.del_nodup hmemdel
  refine ⟨?_, hcount1⟩
  have hle : 1 ≤ s.delLog.count (i, k, v) := List.count_pos_iff_mem.mpr hrdel
  have hub : s.delLog.count (i, k, v) ≤ (s.delLog.map Prod.fst).count (i, k, v).1 :=
    count_le_count_map s.delLog (i, k, v)
  have hub2 : s.delLog.count (i, k, v) ≤ 1 := by
    rw [← hcount1]
    exact hub
  omega

theorem claim_C5_witness :
    (releaseOp (eraseOp (insertOp (initState 10) 1 1 5 1).1 1 1) 0).delLog.count
      (0, 1, 5) = 1
    ∧ ((releaseOp (eraseOp (insertOp (initState 10) 1 1 5 1).1 1 1)
        0).delLog.map Prod.fst).count 0 = 1 := by
  have hins : ((0 : Nat), (1 : Nat), (5 : Nat)) ∈
      (releaseOp (eraseOp (insertOp (initState 10) 1 1 5 1).1 1 1) 0).insLog :=
    by decide
  have hdead : heapGet
      (releaseOp (eraseOp (insertOp (initState 10) 1 1 5 1).1 1 1) 0).heap 0 =
      none := by decide
  exact claim_C5
    (Reach.release 0 (Reach.erase 1 1 (Reach.insert 1 1 5 1 (Reach.init 10)))
      (by decide))
    hins hdead

/-- Claim C6: for every insert of key k with value v into a shard that
does not immediately evict the inserted entry (its record is still
`in_cache` when insert returns), a subsequent lookup of k on that shard
(with no intervening insert) returns a non-null handle — the freshly
inserted entry's — whose value is v. -/
theorem claim_C6 {s : ShardState} (hr : Reach s) (k h v c : Nat)
    (hkept : ∃ e, heapGet (insertOp s k h v c).1.heap (insertOp s k h v c).2 =
      some e ∧ e.in_cache = true) :
    (lookupOp (insertOp s k h v c).1 k h).2 = some (insertOp s k h v c).2
    ∧ ∃ e, heapGet (insertOp s k h v c).1.heap (insertOp s k h v c).2 =
        some e ∧ e.value = v ∧ e.key = k := by
  have hI := reach_inv hr
  have hI2 := reach_inv (Reach.insert k h v c hr)
  obtain ⟨e, hge, hic⟩ := hkept
  have h2 := (insert_preserve hI k h v c).2.1
  obtain ⟨e', hge', hk', hh', hv', -, -⟩ := (insert_preserve hI k h v c).2.2.2.2.2
  rw [h2] at hge
  have hee : e = e' := by
    rw [hge] at hge'
    exact (Option.some.injEq ..).mp hge'
  subst hee
  have hmem : (⟨e.key, e.hash, s.nextId⟩ : HTEntry) ∈
      (insertOp s k h v c).1.table.entries :=
    hI2.in_cache_table s.nextId e hge hic trivial
  have hfind : (insertOp s k h v c).1.table.find k h =
      some ⟨k, h, s.nextId⟩ := by
    rw [hk', hh'] at hmem
    exact HandleTable.find_of_mem hI2.table_wf hmem
  have hlook := (lookup_preserve hI2 k h).2.2.2.2 ⟨k, h, s.nextId⟩ hfind
  refine ⟨?_, e, ?_, hv', hk'⟩
  · rw [h2]
    exact hlook.1
  · rw [h2]
    exact hge

theorem claim_C6_witness :
    (lookupOp (insertOp (initState 10) 3 4 5 2).1 3 4).2 =
      some (insertOp (initState 10) 3 4 5 2).2 :=
  (claim_C6 (Reach.init 10) 3 4 5 2 ⟨⟨3, 4, 5, 2, 2, true⟩, by decide, rfl⟩).1

/-- Claim C7, counterexample to the claim as stated: inserting a second
entry with the same (key, hash) as an existing one displaces the old
entry and does NOT increment the element count — the count increments
only when no entry was displaced.  Here both inserts target (key 0,
hash 0): the second returns the displaced first entry and leaves
`elems_` at 1. -/
theorem claim_C7_counterexample :
    (HandleTable.init.insert ⟨0, 0, 0⟩).2.elems = 1
    ∧ ((HandleTable.init.insert ⟨0, 0, 0⟩).2.insert ⟨0, 0, 1⟩).1 =
        some ⟨0, 0, 0⟩
    ∧ ((HandleTable.init.insert ⟨0, 0, 0⟩).2.insert ⟨0, 0, 1⟩).2.elems = 1 :=
  by decide

/-- Claim C7 (amended): hash-table insert installs the new entry at the
position its (key, hash) would occupy (afterwards a find of that (key,
hash) returns the new entry), unlinks and returns any existing entry with
the same (key, hash); it increments the element count only when no entry
was displaced, in which case it also resizes whenever the element count
comes to exceed the table length, the new length being the smallest power
of two ≥ the new element count, minimum 4; when an entry was displaced
the element count and length are unchanged. -/
theorem claim_C7_amended {t : HandleTable} (w : t.WF) (x : HTEntry) :
    (t.insert x).1 = t.find x.key x.hash
    ∧ (t.insert x).2.WF
    ∧ (∀ y, y ∈ (t.insert x).2.entries ↔
        y = x ∨ (y ∈ t.entries ∧ ¬(y.key = x.key ∧ y.hash = x.hash)))
    ∧ (t.insert x).2.find x.key x.hash = some x
    ∧ ((t.insert x).1 = none →
        (t.insert x).2.elems = t.elems + 1
        ∧ (t.elems + 1 ≤ t.length → (t.insert x).2.length = t.length)
        ∧ (t.length < t.elems + 1 →
            (∃ k2, (t.insert x).2.length = 2 ^ k2)
            ∧ 4 ≤ (t.insert x).2.length
            ∧ (t.insert x).2.elems ≤ (t.insert x).2.length
            ∧ ∀ m, (∃ j, m = 2 ^ j) → 4 ≤ m → (t.insert x).2.elems ≤ m →
                (t.insert x).2.length ≤ m))
    ∧ (∀ o, (t.insert x).1 = some o → o.key = x.key ∧ o.hash = x.hash ∧
        (t.insert x).2.elems = t.elems ∧ (t.insert x).2.length = t.length) := by
  obtain ⟨hfst, hwf', hmem, hnone, hsome⟩ := HandleTable.insert_spec w x
  refine ⟨hfst, hwf', hmem, ?_, ?_, ?_⟩
  · exact HandleTable.find_of_mem hwf' ((hmem x).mpr (Or.inl rfl))
  · intro hn
    obtain ⟨helems, hkeep, hgrow⟩ := hnone hn
    refine ⟨helems, hkeep, ?_⟩
    intro hlt
    obtain ⟨hpow, h4, hreach, hmin⟩ := resizeLength_spec (t.elems + 1)
    rw [hgrow hlt, helems]
    exact ⟨hpow, h4, hreach, hmin⟩
  · intro o ho
    have hfo : t.find x.key x.hash = some o := by rw [← hfst, ho]
    obtain ⟨-, hoh, hok⟩ := HandleTable.find_some_spec hfo
    exact ⟨hok, hoh, (hsome o ho).1, (hsome o ho).2⟩

theorem claim_C7_amended_witness :
    (HandleTable.init.insert ⟨5, 3, 0⟩).1 = HandleTable.init.find 5 3
    ∧ (HandleTable.init.insert ⟨5, 3, 0⟩).2.find 5 3 = some ⟨5, 3, 0⟩ :=
  ⟨(claim_C7_amended HandleTable.init_WF ⟨5, 3, 0⟩).1,
    (claim_C7_amended HandleTable.init_WF ⟨5, 3, 0⟩).2.2.2.1⟩

/-- Claim C9: prune removes and finalizes every entry on the LRU list
(their deleter records are appended, oldest first) until the LRU list is
empty, and leaves every pinned (InUse) entry untouched — its heap record
is unchanged and a lookup of a pinned key still succeeds afterwards. -/
theorem claim_C9 {s : ShardState} (hr : Reach s) :
    (pruneOp s).lru = []
    ∧ (pruneOp s).in_use = s.in_use
    ∧ (pruneOp s).delLog = s.delLog ++ s.lru.map (recOf s)
    ∧ (∀ j, j ∈ s.in_use → heapGet (pruneOp s).heap j = heapGet s.heap j)
    ∧ (∀ j e, j ∈ s.in_use → heapGet s.heap j = some e →
        (lookupOp (pruneOp s) e.key e.hash).2 = some j) := by
  have hI := reach_inv hr
  obtain ⟨hI', hcap, hnext, hheld, hinsL, hinuse, hheap, htab, hsuff⟩ :=
    pruneLoop_inv s.lru.length s hI
  obtain ⟨hlru0, hdel⟩ := hsuff (le_refl _)
  have hp : pruneOp s = pruneLoop s.lru.length s := rfl
  have hnotlru : ∀ j, j ∈ s.in_use → j ∉ s.lru := by
    intro j hj hjl
    exact hI.lists_disj j hjl hj
  refine ⟨by rw [hp]; exact hlru0, by rw [hp]; exact hinuse,
    by rw [hp]; exact hdel, ?_, ?_⟩
  · intro j hj
    rw [hp]
    exact hheap j (hnotlru j hj)
  · intro j e hj hge
    obtain ⟨e0, hge0, -, hic0⟩ := hI.in_use_refs j hj
    have hee : e = e0 := by
      rw [hge] at hge0
      exact (Option.some.injEq ..).mp hge0
    subst hee
    have hmem : (⟨e.key, e.hash, j⟩ : HTEntry) ∈ s.table.entries :=
      hI.in_cache_table j e hge hic0 trivial
    have hmem' : (⟨e.key, e.hash, j⟩ : HTEntry) ∈
        (pruneLoop s.lru.length s).table.entries :=
      (htab ⟨e.key, e.hash, j⟩
        (show (⟨e.key, e.hash, j⟩ : HTEntry).id ∉ s.lru from
          hnotlru j hj)).mpr hmem
    have hfind : (pruneLoop s.lru.length s).table.find e.key e.hash =
        some ⟨e.key, e.hash, j⟩ :=
      HandleTable.find_of_mem hI'.table_wf hmem'
    have hlook := (lookup_preserve hI' e.key e.hash).2.2.2.2
      ⟨e.key, e.hash, j⟩ hfind
    rw [hp]
    exact hlook.1

theorem claim_C9_witness :
    (pruneOp (releaseOp (insertOp (insertOp (initState 10) 1 1 100 1).1
        2 2 200 1).1 1)).lru = []
    ∧ (lookupOp (pruneOp (releaseOp (insertOp (insertOp (initState 10)
        1 1 100 1).1 2 2 200 1).1 1)) 1 1).2 = some 0 := by
  have hr : Reach (releaseOp (insertOp (insertOp (initState 10) 1 1 100 1).1
      2 2 200 1).1 1) :=
    Reach.release 1 (Reach.insert 2 2 200 1 (Reach.insert 1 1 100 1
      (Reach.init 10))) (by decide)
  refine ⟨(claim_C9 hr).1, ?_⟩
  exact (claim_C9 hr).2.2.2.2 0 ⟨1, 1, 100, 1, 2, true⟩ (by decide) (by decide)
